import Mathlib

/-!
# AlphaForge core engines: a shallow embedding in Lean 4

This file embeds the parts of the AlphaForge trading platform (Rust) that the
verified claims are about, and proves or refutes each claim against the
embedding.  Machine integers are modelled as `Int`/`Nat` with explicit bounds
where overflow matters; Rust `f64` values that the code manipulates
(prices, quantities, commissions) are modelled as exact rationals `ℚ` — each
theorem that depends on floating-point behaviour is evaluated only at inputs
where the IEEE-754 double computation is exact, so the rational model agrees
with the code there.  Fallible Rust functions returning `Result` are modelled
with `Except`; `Option` maps to `Option`.

Source files embedded:
* `crates/model/src/orderbook.rs` (`Price`, `Quantity`, `BookOrder`, `OrderBook`)
* `crates/model/src/identifiers.rs` (`InstrumentId::new`)
* `crates/core/src/identifiers.rs` (`InstrumentId::from_str`, `from_symbol_venue`)
* `crates/core/src/generic_cache.rs` (`GenericCache`)
* `crates/core/src/data_engine.rs` (`BarAggregator`)
* `crates/core/src/strategy_engine.rs` (`StrategyEngine` dispatch)
* `crates/core/src/execution_engine.rs` (`Order`, `Fill`, `ExecutionEngine`)
-/

deriving instance DecidableEq for Except

namespace AlphaForge

/-! ## Machine-integer bounds -/

/-- Largest `i64` value. -/
def i64Max : Int := 9223372036854775807

/-- Smallest `i64` value. -/
def i64Min : Int := -9223372036854775808

/-! ## Rust float-to-int cast and rounding

Rust's `as i64` cast on a float truncates toward zero and **saturates** at the
integer type's bounds (it never wraps or is undefined).  `f64::round` rounds
half away from zero.  Both are modelled on exact rationals. -/

/-- Truncation toward zero of a rational, as Rust float-to-int conversion does
before saturating. -/
def truncQ (x : ℚ) : Int :=
  if 0 ≤ x then ⌊x⌋ else ⌈x⌉

/-- Rust `as i64` cast of a (non-NaN) float value: truncate toward zero, then
saturate to `[i64Min, i64Max]`. -/
def f64AsI64 (x : ℚ) : Int :=
  max i64Min (min i64Max (truncQ x))

/-- Rust `f64::round`: round half away from zero. -/
def f64Round (x : ℚ) : ℚ :=
  if 0 ≤ x then (⌊x + (1 : ℚ)/2⌋ : ℤ) else (⌈x - (1 : ℚ)/2⌉ : ℤ)

/-! ## `Price` (crates/model/src/orderbook.rs)

`Price` is a transparent wrapper over an `i64` scaled by `10⁹`.  The wrapped
raw value is modelled as `Int`; constructors enforce the `i64`-range facts the
Rust type gives for free only where they matter to the claims. -/

/-- Fixed-point price: wrapper over the raw `i64` value (scale `10⁹`). -/
structure Price where
  raw : Int
  deriving DecidableEq, Repr

namespace Price

/-- `Price::PRECISION`. -/
def PRECISION : Nat := 9

/-- `Price::new(raw, precision)` from the source: reject precision above 9 and
non-positive raw values, then left-shift to the internal scale. -/
def new (raw : Int) (precision : Nat) : Except String Price :=
  if precision > PRECISION then .error "PrecisionTooHigh"
  else if raw ≤ 0 then .error "NonPositive"
  else .ok ⟨raw * 10 ^ (PRECISION - precision)⟩

/-- `Price::checked_mul_f64` from the source:

```rust
let result = (self.0 as f64 * factor).round() as i64;
if result > 0 && result <= i64::MAX { Some(Self(result)) } else { None }
```

The double multiplication is modelled as exact rational multiplication (the
theorems below evaluate it only at powers of two, where the double computation
is exact), `.round()` as `f64Round`, and the `as i64` cast as the saturating
`f64AsI64`. -/
def checkedMulF64 (p : Price) (factor : ℚ) : Option Price :=
  let result := f64AsI64 (f64Round ((p.raw : ℚ) * factor))
  if result > 0 ∧ result ≤ i64Max then some ⟨result⟩ else none

end Price

/-- C9, the claim as spec'd, stated against the embedding: `checked_mul_f64`
returns `none` whenever the true product overflows the positive `i64` range. -/
def C9Claim : Prop :=
  ∀ (p : Price) (factor : ℚ),
    (p.raw : ℚ) * factor > (i64Max : ℚ) →
    Price.checkedMulF64 p factor = none

/-- **C9** (code bug).  The guard `result <= i64::MAX` in
`Price::checked_mul_f64` is vacuous: the `as i64` cast has already saturated
the out-of-range product to `i64::MAX`, so the function silently returns the
saturated price instead of failing.  Concretely, for the valid price with raw
value `2^62` (constructible via `Price::new(2^62, 9)`) and factor `4.0`, the
true product `2^64` exceeds `i64::MAX`, yet the function returns
`Some(Price(i64::MAX))` — a saturated result — rather than `None`.  All double
computations at this input (`2^62 as f64`, `* 4.0`, `.round()`) are exact, so
the rational model coincides with the code. -/
theorem c9_checked_mul_saturates_instead_of_failing :
    Price.new (2 ^ 62) 9 = .ok ⟨2 ^ 62⟩ ∧
    ((2 ^ 62 : Int) : ℚ) * 4 > (i64Max : ℚ) ∧
    Price.checkedMulF64 ⟨2 ^ 62⟩ 4 = some ⟨i64Max⟩ ∧
    ¬ C9Claim := by
  refine ⟨by norm_num [Price.new, Price.PRECISION], by norm_num [i64Max], ?_, ?_⟩
  · show (if f64AsI64 (f64Round ((((2:Int) ^ 62 : Int) : ℚ) * 4)) > 0 ∧
        f64AsI64 (f64Round ((((2:Int) ^ 62 : Int) : ℚ) * 4)) ≤ i64Max then
        some (⟨f64AsI64 (f64Round ((((2:Int) ^ 62 : Int) : ℚ) * 4))⟩ : Price) else none)
      = some ⟨i64Max⟩
    norm_num [f64AsI64, f64Round, truncQ, i64Max, i64Min]
  · intro h
    have h1 := h ⟨2 ^ 62⟩ 4 (by norm_num [i64Max])
    have h2 : Price.checkedMulF64 ⟨2 ^ 62⟩ 4 = some ⟨i64Max⟩ := by
      show (if f64AsI64 (f64Round ((((2:Int) ^ 62 : Int) : ℚ) * 4)) > 0 ∧
          f64AsI64 (f64Round ((((2:Int) ^ 62 : Int) : ℚ) * 4)) ≤ i64Max then
          some (⟨f64AsI64 (f64Round ((((2:Int) ^ 62 : Int) : ℚ) * 4))⟩ : Price) else none)
        = some ⟨i64Max⟩
      norm_num [f64AsI64, f64Round, truncQ, i64Max, i64Min]
    rw [h1] at h2
    exact Option.noConfusion h2

/-! ## Instrument identifiers

Two distinct `InstrumentId` types exist in the repository:
* `crates/model/src/identifiers.rs`: `(symbol, venue)` pair, case-normalized
  to uppercase, derived equality on the fields;
* `crates/core/src/identifiers.rs`: a bare `u64`; `FromStr` first tries a
  numeric parse and otherwise hashes the two dot-separated components.

Strings are modelled as `List Char`.  Rust's `str::split('.')` is modelled by
`splitDot` (same semantics for a single-character separator: `n` separators
produce `n + 1` parts, `""` produces `[""]`).  Rust's `char`/`str`
`to_uppercase` agrees with Lean's `Char.toUpper` on ASCII, which is all the
spec admits for identifiers. -/

/-- Rust `str::split('.')` at the character level. -/
def splitDot : List Char → List (List Char)
  | [] => [[]]
  | c :: cs =>
    if c = '.' then [] :: splitDot cs
    else
      match splitDot cs with
      | [] => [[c]]
      | g :: gs => (c :: g) :: gs

theorem splitDot_ne_nil (cs : List Char) : splitDot cs ≠ [] := by
  induction cs with
  | nil => simp [splitDot]
  | cons c cs ih =>
    simp only [splitDot]
    split
    · simp
    · cases h : splitDot cs <;> simp

theorem length_splitDot (cs : List Char) :
    (splitDot cs).length = cs.count '.' + 1 := by
  induction cs with
  | nil => simp [splitDot]
  | cons c cs ih =>
    simp only [splitDot]
    by_cases hc : c = '.'
    · simp [hc, List.count_cons, ih]
    · simp only [if_neg hc]
      cases h : splitDot cs with
      | nil => exact absurd h (splitDot_ne_nil cs)
      | cons g gs =>
        rw [h] at ih
        simp only [List.length_cons] at ih ⊢
        simp [List.count_cons, hc, ih]

theorem not_dot_mem_splitDot (cs : List Char) :
    ∀ p ∈ splitDot cs, '.' ∉ p := by
  induction cs with
  | nil => simp [splitDot]
  | cons c cs ih =>
    simp only [splitDot]
    by_cases hc : c = '.'
    · simp only [if_pos hc]
      intro p hp
      rcases List.mem_cons.mp hp with h | h
      · simp [h]
      · exact ih p h
    · simp only [if_neg hc]
      cases h : splitDot cs with
      | nil => exact absurd h (splitDot_ne_nil cs)
      | cons g gs =>
        intro p hp
        rcases List.mem_cons.mp hp with h' | h'
        · subst h'
          intro hmem
          rcases List.mem_cons.mp hmem with h'' | h''
          · exact hc h''.symm
          · exact ih g (h ▸ List.mem_cons_self g gs) h''
        · exact ih p (h ▸ List.mem_cons_of_mem g h')

/-- A list with dot-free prefixes decomposes uniquely around `'.'`. -/
theorem dot_decomposition_unique :
    ∀ (s₁ s₂ v₁ v₂ : List Char), '.' ∉ s₁ → '.' ∉ s₂ →
      s₁ ++ '.' :: v₁ = s₂ ++ '.' :: v₂ → s₁ = s₂ ∧ v₁ = v₂ := by
  intro s₁
  induction s₁ with
  | nil =>
    intro s₂ v₁ v₂ _ h₂ heq
    cases s₂ with
    | nil => simpa using heq
    | cons c t =>
      simp only [List.nil_append, List.cons_append, List.cons.injEq] at heq
      exact absurd (heq.1.symm ▸ List.mem_cons_self c t) h₂
  | cons c t ih =>
    intro s₂ v₁ v₂ h₁ h₂ heq
    cases s₂ with
    | nil =>
      simp only [List.cons_append, List.nil_append, List.cons.injEq] at heq
      exact absurd (heq.1 ▸ List.mem_cons_self c t) h₁
    | cons c' t' =>
      simp only [List.cons_append, List.cons.injEq] at heq
      obtain ⟨hc, ht⟩ := heq
      have := ih t' v₁ v₂ (fun h => h₁ (List.mem_cons_of_mem c h))
        (fun h => h₂ (List.mem_cons_of_mem c' h)) ht
      exact ⟨by rw [hc, this.1], this.2⟩

/-- `Char.toUpper` (= Rust `to_uppercase` on ASCII) never produces `'.'` from
another character. -/
theorem toUpper_eq_dot {c : Char} (h : Char.toUpper c = '.') : c = '.' := by
  have hdef : Char.toUpper c =
      if c.toNat ≥ 97 ∧ c.toNat ≤ 122 then Char.ofNat (c.toNat - 32) else c := rfl
  rw [hdef] at h
  split at h
  · rename_i hrange
    obtain ⟨hlo, hhi⟩ := hrange
    set n := c.toNat with hn
    interval_cases n <;> exact absurd h (by decide)
  · exact h

theorem not_dot_map_toUpper {p : List Char} (h : '.' ∉ p) :
    '.' ∉ p.map Char.toUpper := by
  intro hmem
  obtain ⟨c, hc, hceq⟩ := List.mem_map.mp hmem
  exact h (toUpper_eq_dot hceq ▸ hc)

/-- Rust `u64::from_str`: optional leading `'+'`, at least one ASCII digit,
overflow fails. -/
def parseU64 (s : List Char) : Option Nat :=
  let t := match s with
    | '+' :: rest => rest
    | _ => s
  if t ≠ [] ∧ t.all Char.isDigit then
    let n := t.foldl (fun a c => a * 10 + (c.toNat - 48)) 0
    if n < 2 ^ 64 then some n else none
  else none

/-- Result of `core::identifiers::InstrumentId::from_str`.  The source stores
only a `u64`: either the numeric value parsed directly, or the `DefaultHasher`
hash of the two components.  The hash function itself (SipHash) is not
modelled; the `fromSymbolVenue` constructor records the exact inputs the
source feeds to the hasher (note: *not* case-normalized). -/
inductive CoreInstrumentId where
  | numeric (id : Nat)
  | fromSymbolVenue (symbol venue : List Char)
  deriving DecidableEq

/-- `core::identifiers::InstrumentId::from_str` from the source:

```rust
if let Ok(id) = s.parse::<u64>() { return Ok(InstrumentId { id }); }
let parts: Vec<&str> = s.split('.').collect();
if parts.len() != 2 { return Err(...); }
Ok(InstrumentId::from_symbol_venue(parts[0], parts[1]))
``` -/
def coreInstrumentIdFromStr (s : List Char) : Except String CoreInstrumentId :=
  match parseU64 s with
  | some id => .ok (.numeric id)
  | none =>
    match splitDot s with
    | [a, b] => .ok (.fromSymbolVenue a b)
    | _ => .error "InvalidFormat"

/-- `model::identifiers::IdentifierError`. -/
inductive IdentifierError where
  | invalidFormat
  | emptyComponent
  | tooLong
  deriving DecidableEq

/-- `model::identifiers::InstrumentId`: symbol, venue, and the cached raw
string `symbol.venue`, all uppercased.  Rust derives `PartialEq`/`Eq` on the
fields, which is the structure equality used here. -/
structure MInstrumentId where
  symbol : List Char
  venue : List Char
  raw : List Char
  deriving DecidableEq

/-- `model::identifiers::InstrumentId::new` from the source: split on `'.'`,
require exactly two parts, uppercase both, reject empty components, cache
`symbol.venue`. -/
def mInstrumentIdNew (identifier : List Char) : Except IdentifierError MInstrumentId :=
  match splitDot identifier with
  | [a, b] =>
    if a.map Char.toUpper = [] ∨ b.map Char.toUpper = [] then .error .emptyComponent
    else .ok ⟨a.map Char.toUpper, b.map Char.toUpper,
      a.map Char.toUpper ++ '.' :: b.map Char.toUpper⟩
  | _ => .error .invalidFormat

/-- Components of a successfully constructed model id are dot-free and
determine `raw`. -/
theorem mInstrumentIdNew_ok_shape {s : List Char} {id : MInstrumentId}
    (h : mInstrumentIdNew s = .ok id) :
    id.raw = id.symbol ++ '.' :: id.venue ∧ '.' ∉ id.symbol ∧ '.' ∉ id.venue := by
  unfold mInstrumentIdNew at h
  split at h
  · rename_i a b heq
    split at h
    · exact absurd h (by simp)
    · simp only [Except.ok.injEq] at h
      subst h
      refine ⟨rfl, ?_, ?_⟩
      · exact not_dot_map_toUpper
          (not_dot_mem_splitDot s a (heq ▸ List.mem_cons_self a [b]))
      · exact not_dot_map_toUpper
          (not_dot_mem_splitDot s b (heq ▸ List.mem_cons_of_mem a (List.mem_cons_self b [])))
  · exact absurd h (by simp)

/-- **C6 counterexample.**  The claim states parsing fails whenever the input
does not contain exactly one `'.'`; but `core::InstrumentId::from_str` first
attempts a numeric parse, so the dot-free string `"42"` parses successfully. -/
theorem c6_counterexample_core_parser_accepts_dotless :
    coreInstrumentIdFromStr "42".data = .ok (.numeric 42) ∧
    ("42".data).count '.' ≠ 1 := by
  constructor
  · rfl
  · decide

/-- **C6** (corrected).  The claimed parsing/equality contract holds for
`model::identifiers::InstrumentId::new`:
1. construction succeeds iff the input has exactly one `'.'` and both
   components are nonempty;
2. two constructed instruments are equal iff their normalized raw strings
   (`SYMBOL.VENUE`, uppercased) are equal;
3. `"btcusd.binance"` and `"BTCUSD.BINANCE"` construct equal instruments.
(`core::identifiers::InstrumentId::from_str` does not satisfy the claim: see
the counterexample.) -/
theorem c6_model_instrument_id_contract :
    (∀ s : List Char,
      (mInstrumentIdNew s).isOk = true ↔
        (s.count '.' = 1 ∧ [] ∉ splitDot s)) ∧
    (∀ (s t : List Char) (id₁ id₂ : MInstrumentId),
      mInstrumentIdNew s = .ok id₁ → mInstrumentIdNew t = .ok id₂ →
      (id₁ = id₂ ↔ id₁.raw = id₂.raw)) ∧
    (mInstrumentIdNew "btcusd.binance".data = mInstrumentIdNew "BTCUSD.BINANCE".data ∧
      (mInstrumentIdNew "btcusd.binance".data).isOk = true) := by
  refine ⟨?_, ?_, by decide, by decide⟩
  · intro s
    have hlen := length_splitDot s
    unfold mInstrumentIdNew
    constructor
    · intro h
      split at h
      · rename_i a b heq
        split at h
        · simp [Except.isOk, Except.toBool] at h
        · rename_i hne
          push_neg at hne
          have hcount : s.count '.' = 1 := by
            rw [heq] at hlen
            simp only [List.length_cons, List.length_nil] at hlen
            omega
          refine ⟨hcount, ?_⟩
          rw [heq]
          intro hmem
          rcases List.mem_cons.mp hmem with h' | h'
          · exact hne.1 (by rw [← h']; rfl)
          · rcases List.mem_cons.mp h' with h'' | h''
            · exact hne.2 (by rw [← h'']; rfl)
            · simp at h''
      · simp [Except.isOk, Except.toBool] at h
    · rintro ⟨hcount, hne⟩
      have h2 : (splitDot s).length = 2 := by rw [hlen, hcount]
      match hsd : splitDot s with
      | [a, b] =>
        have ha : a ≠ [] := fun h => hne (h ▸ hsd ▸ List.mem_cons_self a [b])
        have hb : b ≠ [] := fun h =>
          hne (h ▸ hsd ▸ List.mem_cons_of_mem a (List.mem_cons_self b []))
        simp only [hsd]
        rw [if_neg]
        · rfl
        · push_neg
          exact ⟨by simpa using ha, by simpa using hb⟩
      | [] => rw [hsd] at h2; simp at h2
      | [a] => rw [hsd] at h2; simp at h2
      | a :: b :: c :: rest => rw [hsd] at h2; simp at h2
  · intro s t id₁ id₂ h₁ h₂
    obtain ⟨hr₁, hs₁, hv₁⟩ := mInstrumentIdNew_ok_shape h₁
    obtain ⟨hr₂, hs₂, hv₂⟩ := mInstrumentIdNew_ok_shape h₂
    constructor
    · intro h; rw [h]
    · intro h
      rw [hr₁, hr₂] at h
      obtain ⟨hsy, hve⟩ := dot_decomposition_unique _ _ _ _ hs₁ hs₂ h
      cases id₁; cases id₂
      simp_all

/-- Witness for C6: the contract applied at concrete inputs. -/
theorem c6_model_instrument_id_contract_witness :
    ((mInstrumentIdNew "eth.kraken".data).isOk = true ↔
      (("eth.kraken".data).count '.' = 1 ∧ [] ∉ splitDot "eth.kraken".data)) ∧
    ((⟨"ETH".data, "KRAKEN".data, "ETH.KRAKEN".data⟩ : MInstrumentId) =
        ⟨"ETH".data, "KRAKEN".data, "ETH.KRAKEN".data⟩ ↔
      ("ETH.KRAKEN".data : List Char) = "ETH.KRAKEN".data) :=
  ⟨c6_model_instrument_id_contract.1 _,
   c6_model_instrument_id_contract.2.1 "eth.kraken".data "eth.kraken".data _ _
     (by decide) (by decide)⟩

/-! ## Generic cache (crates/core/src/generic_cache.rs)

The Rust `GenericCache` is a `HashMap<String, CacheEntry<T>>` plus statistics
behind locks.  The map is modelled as an association list in which `HashMap`'s
(arbitrary) iteration order is the list order: eviction in `put` removes the
entry `iter().next()` yields, modelled as the list head.  The code reads the
wall clock (seconds) inside `CacheEntry::new` and `is_expired`; the model
passes that reading as an explicit `now` argument. -/

/-- Association-list lookup (models `HashMap::get`). -/
def alookup {κ α : Type _} [DecidableEq κ] : List (κ × α) → κ → Option α
  | [], _ => none
  | (k, v) :: rest, key => if k = key then some v else alookup rest key

/-- Association-list removal (models `HashMap::remove`). -/
def aremove {κ α : Type _} [DecidableEq κ] : List (κ × α) → κ → List (κ × α)
  | [], _ => []
  | (k, v) :: rest, key => if k = key then rest else (k, v) :: aremove rest key

/-- Association-list insert-or-replace (models `HashMap::insert`): replace in
place if present, else append. -/
def ainsert {κ α : Type _} [DecidableEq κ] : List (κ × α) → κ → α → List (κ × α)
  | [], key, v => [(key, v)]
  | (k, w) :: rest, key, v =>
    if k = key then (key, v) :: rest else (k, w) :: ainsert rest key v

theorem ainsert_length {κ α : Type _} [DecidableEq κ]
    (data : List (κ × α)) (key : κ) (v : α) :
    (ainsert data key v).length ≤ data.length + 1 := by
  induction data with
  | nil => simp [ainsert]
  | cons e rest ih =>
    obtain ⟨k, w⟩ := e
    simp only [ainsert]
    split
    · simp
    · simpa using Nat.succ_le_succ ih

theorem ainsert_length_of_mem {κ α : Type _} [DecidableEq κ]
    {data : List (κ × α)} {key : κ} (v : α) {e : α}
    (h : alookup data key = some e) :
    (ainsert data key v).length = data.length := by
  induction data with
  | nil => simp [alookup] at h
  | cons p rest ih =>
    obtain ⟨k, w⟩ := p
    simp only [alookup] at h
    simp only [ainsert]
    split
    · simp
    · rename_i hne
      rw [if_neg hne] at h
      simpa using ih h

theorem aremove_length {κ α : Type _} [DecidableEq κ]
    (data : List (κ × α)) (key : κ) :
    (aremove data key).length ≤ data.length := by
  induction data with
  | nil => simp [aremove]
  | cons e rest ih =>
    obtain ⟨k, w⟩ := e
    simp only [aremove]
    split
    · simp
    · simpa using Nat.succ_le_succ ih

/-- `GenericCacheConfig`. -/
structure GCacheConfig where
  maxSize : Nat
  ttlSeconds : Option Nat
  enableStatistics : Bool
  deriving DecidableEq, Repr

/-- `CacheEntry<T>`. -/
structure GCacheEntry (T : Type) where
  value : T
  createdAt : Nat
  expiresAt : Option Nat
  accessCount : Nat
  deriving DecidableEq, Repr

/-- `CacheEntry::new` (the `now` the code reads from the system clock is an
argument). -/
def GCacheEntry.mk' {T : Type} (value : T) (ttlSeconds : Option Nat) (now : Nat) :
    GCacheEntry T :=
  ⟨value, now, ttlSeconds.map (now + ·), 0⟩

/-- `CacheEntry::is_expired`. -/
def GCacheEntry.isExpired {T : Type} (e : GCacheEntry T) (now : Nat) : Bool :=
  match e.expiresAt with
  | some expiresAt => now > expiresAt
  | none => false

/-- `GenericCacheStatistics`. -/
structure GCacheStats where
  hits : Nat
  misses : Nat
  inserts : Nat
  evictions : Nat
  memoryUsage : Nat
  deriving DecidableEq, Repr

/-- `GenericCacheStatistics::default()`. -/
def GCacheStats.init : GCacheStats := ⟨0, 0, 0, 0, 0⟩

/-- `GenericCache<T>`.  The key type is a parameter: the source always keys by
`String`; the execution engine instantiates the cache at `String` keys of the
form `order_id.to_string()`, which is an injective image of the ids, so its
model instantiates `κ = Nat` and keys by the id itself — an observationally
identical renaming of the key space. -/
structure GCache (κ T : Type) where
  config : GCacheConfig
  data : List (κ × GCacheEntry T)
  stats : GCacheStats
  deriving DecidableEq

/-- `GenericCache::new`. -/
def GCache.new {κ T : Type} (config : GCacheConfig) : GCache κ T :=
  ⟨config, [], GCacheStats.init⟩

/-- `GenericCache::get`: remove-and-miss on TTL expiry, otherwise touch the
entry and count a hit. -/
def GCache.get {κ T : Type} [DecidableEq κ] (c : GCache κ T) (k : κ) (now : Nat) :
    Option T × GCache κ T :=
  match alookup c.data k with
  | some entry =>
    if entry.isExpired now then
      (none, { c with
        data := aremove c.data k
        stats := if c.config.enableStatistics then
            { c.stats with misses := c.stats.misses + 1,
                           evictions := c.stats.evictions + 1 }
          else c.stats })
    else
      (some entry.value, { c with
        data := ainsert c.data k { entry with accessCount := entry.accessCount + 1 }
        stats := if c.config.enableStatistics then
            { c.stats with hits := c.stats.hits + 1 }
          else c.stats })
  | none =>
    (none, { c with
      stats := if c.config.enableStatistics then
          { c.stats with misses := c.stats.misses + 1 }
        else c.stats })

/-- The `while data.len() >= max_size { evict iter().next() }` loop in
`GenericCache::put`: keep dropping the first map entry while at or above
capacity; the loop breaks when the map is empty. -/
def evictLoop {κ T : Type} (maxSize : Nat) (enable : Bool) :
    List (κ × GCacheEntry T) → GCacheStats →
    List (κ × GCacheEntry T) × GCacheStats
  | [], stats => ([], stats)
  | e :: rest, stats =>
    if (e :: rest).length ≥ maxSize then
      evictLoop maxSize enable rest
        (if enable then { stats with evictions := stats.evictions + 1 } else stats)
    else (e :: rest, stats)

theorem evictLoop_length_lt {κ T : Type} (maxSize : Nat) (enable : Bool)
    (data : List (κ × GCacheEntry T)) (stats : GCacheStats)
    (h : 1 ≤ maxSize) :
    (evictLoop maxSize enable data stats).1.length < maxSize := by
  induction data generalizing stats with
  | nil => simpa [evictLoop] using h
  | cons e rest ih =>
    simp only [evictLoop]
    split
    · exact ih _
    · rename_i hlt
      simp only [Nat.not_le] at hlt
      exact hlt

/-- `GenericCache::put`: evict while at capacity, then insert a fresh entry. -/
def GCache.put {κ T : Type} [DecidableEq κ] (c : GCache κ T) (k : κ) (v : T)
    (now : Nat) : GCache κ T :=
  let es := evictLoop c.config.maxSize c.config.enableStatistics c.data c.stats
  let wasNew := (alookup es.1 k).isNone
  let entry := GCacheEntry.mk' v c.config.ttlSeconds now
  { c with
    data := ainsert es.1 k entry
    stats := if c.config.enableStatistics ∧ wasNew then
        { es.2 with inserts := es.2.inserts + 1 }
      else es.2 }

/-- `GenericCache::contains`. -/
def GCache.containsKey {κ T : Type} [DecidableEq κ] (c : GCache κ T) (k : κ)
    (now : Nat) : Bool :=
  match alookup c.data k with
  | some entry => ¬ entry.isExpired now
  | none => false

/-- `GenericCache::remove`. -/
def GCache.removeKey {κ T : Type} [DecidableEq κ] (c : GCache κ T) (k : κ) :
    Bool × GCache κ T :=
  ((alookup c.data k).isSome, { c with data := aremove c.data k })

/-- `GenericCache::clear`: drop all data; reset statistics only when
statistics are enabled. -/
def GCache.clear {κ T : Type} (c : GCache κ T) : GCache κ T :=
  { c with
    data := []
    stats := if c.config.enableStatistics then GCacheStats.init else c.stats }

/-- `GenericCache::size`. -/
def GCache.size {κ T : Type} (c : GCache κ T) : Nat :=
  c.data.length

/-- One user-visible cache operation (`now` is the wall-clock reading the code
makes during the call). -/
inductive CacheOp (T : Type) where
  | get (k : String) (now : Nat)
  | put (k : String) (v : T) (now : Nat)
  | removeKey (k : String)
  | clear
  deriving DecidableEq

/-- Apply one operation, discarding the returned value. -/
def applyCacheOp {T : Type} (c : GCache String T) : CacheOp T → GCache String T
  | .get k now => (c.get k now).2
  | .put k v now => c.put k v now
  | .removeKey k => (c.removeKey k).2
  | .clear => c.clear

/-- Run a sequence of operations from a given cache. -/
def runCacheOps {T : Type} (c : GCache String T) (ops : List (CacheOp T)) :
    GCache String T :=
  ops.foldl applyCacheOp c

/-- Any single operation preserves `size ≤ max_size` when `max_size ≥ 1`. -/
theorem applyCacheOp_size_le {T : Type} (c : GCache String T) (op : CacheOp T)
    (hmax : 1 ≤ c.config.maxSize) (h : c.size ≤ c.config.maxSize) :
    (applyCacheOp c op).size ≤ c.config.maxSize := by
  cases op with
  | get k now =>
    simp only [applyCacheOp, GCache.get]
    split
    · rename_i entry heq
      split
      · exact le_trans (aremove_length c.data k) h
      · simpa [GCache.size, ainsert_length_of_mem _ heq] using h
    · exact h
  | put k v now =>
    have hev := evictLoop_length_lt c.config.maxSize c.config.enableStatistics
      c.data c.stats hmax
    simp only [applyCacheOp, GCache.put, GCache.size]
    calc (ainsert (evictLoop c.config.maxSize c.config.enableStatistics
            c.data c.stats).1 k (GCacheEntry.mk' v c.config.ttlSeconds now)).length
        ≤ (evictLoop c.config.maxSize c.config.enableStatistics
            c.data c.stats).1.length + 1 := ainsert_length _ _ _
      _ ≤ c.config.maxSize := hev
  | removeKey k => exact le_trans (aremove_length c.data k) h
  | clear => simp [applyCacheOp, GCache.clear, GCache.size]

theorem applyCacheOp_config {T : Type} (c : GCache String T) (op : CacheOp T) :
    (applyCacheOp c op).config = c.config := by
  cases op with
  | get k now =>
    simp only [applyCacheOp, GCache.get]
    split
    · split <;> rfl
    · rfl
  | put k v now => rfl
  | removeKey k => rfl
  | clear => rfl

/-- C7, the claim as spec'd: for *every* `max_size`, including `0`, any
operation sequence keeps `size ≤ max_size`. -/
def C7Claim : Prop :=
  ∀ (cfg : GCacheConfig) (ops : List (CacheOp Nat)),
    (runCacheOps (GCache.new cfg) ops).size ≤ cfg.maxSize

/-- **C7 counterexample.**  With `max_size = 0` the eviction loop's
`iter().next()` finds nothing in the empty map and breaks, after which the
insert still happens, so a single `put` yields `size = 1 > 0 = max_size`. -/
theorem c7_counterexample_zero_capacity :
    (runCacheOps (GCache.new ⟨0, none, false⟩) [CacheOp.put "a" (42 : Nat) 0]).size = 1 ∧
    ¬ C7Claim := by
  constructor
  · rfl
  · intro h
    have := h ⟨0, none, false⟩ [CacheOp.put "a" 42 0]
    simp [runCacheOps, applyCacheOp, GCache.put, GCache.new, evictLoop,
      ainsert, GCache.size] at this

/-- **C7** (corrected).  For every configuration with `max_size ≥ 1` and every
operation sequence from a fresh cache, `size ≤ max_size` holds after each
operation, and immediately after `clear` the size is `0`.  (For
`max_size = 0` the bound fails: see the counterexample.) -/
theorem c7_cache_size_bounded :
    (∀ (cfg : GCacheConfig) (ops : List (CacheOp Nat)),
      1 ≤ cfg.maxSize →
      (runCacheOps (GCache.new cfg) ops).size ≤ cfg.maxSize) ∧
    (∀ c : GCache String Nat, (GCache.clear c).size = 0) := by
  constructor
  · intro cfg ops hmax
    suffices h : ∀ (c : GCache String Nat), c.config = cfg → c.size ≤ cfg.maxSize →
        (runCacheOps c ops).size ≤ cfg.maxSize by
      exact h (GCache.new cfg) rfl (by simp [GCache.new, GCache.size])
    induction ops with
    | nil => intro c _ h; exact h
    | cons op rest ih =>
      intro c hcfg h
      exact ih (applyCacheOp c op) (by rw [applyCacheOp_config, hcfg])
        (by rw [← hcfg] at hmax h ⊢; exact applyCacheOp_size_le c op hmax h)
  · intro c
    rfl

/-- Witness for C7: a concrete capacity-1 cache and operation sequence. -/
theorem c7_cache_size_bounded_witness :
    (1 : Nat) ≤ 1 ∧
    (runCacheOps (GCache.new ⟨1, none, true⟩)
      [CacheOp.put "a" (1 : Nat) 0, CacheOp.put "b" 2 0, CacheOp.get "a" 1,
       CacheOp.removeKey "b", CacheOp.clear]).size ≤ 1 :=
  ⟨le_refl 1,
   c7_cache_size_bounded.1 ⟨1, none, true⟩ _ (le_refl 1)⟩

/-! ## Bar aggregator (crates/core/src/data_engine.rs)

`f64` prices/volumes are modelled as `ℚ`; `u64` counts and timestamps as
`Nat`.  In `should_close_bar`'s `Time` arm the source computes
`current_ts - partial.ts_start` on `u64`; the model uses truncated `Nat`
subtraction, which agrees whenever ticks arrive in non-decreasing `ts_event`
order (the spec's stated feeding discipline).  The claims proved below only
exercise the `Tick` arm. -/

/-- `AggressorSide`. -/
inductive AggressorSide where
  | buyer
  | seller
  | noAggressor
  deriving DecidableEq, Repr

/-- `TradeTick` (core data.rs); `instrument_id` is the core numeric id. -/
structure TradeTick where
  instrumentId : Nat
  price : ℚ
  size : ℚ
  aggressorSide : AggressorSide
  tradeId : String
  tsEvent : Nat
  tsInit : Nat
  deriving DecidableEq, Repr

/-- `BarAggregation`. -/
inductive BarAggregation where
  | time (durationNanos : Nat)
  | tick (count : Nat)
  | volume (amount : Nat)
  | dollar (amount : Nat)
  deriving DecidableEq, Repr

/-- `BarSpecification`. -/
structure BarSpecification where
  step : Nat
  aggregation : BarAggregation
  deriving DecidableEq, Repr

/-- `BarType`. -/
structure BarType where
  instrumentId : Nat
  barSpec : BarSpecification
  deriving DecidableEq, Repr

/-- `Bar` (fields `open/high/low/close` renamed `openPrice/...` since `open`
is reserved in Lean). -/
structure Bar where
  barType : BarType
  openPrice : ℚ
  highPrice : ℚ
  lowPrice : ℚ
  closePrice : ℚ
  volume : ℚ
  tsEvent : Nat
  tsInit : Nat
  deriving DecidableEq, Repr

/-- `PartialBar`. -/
structure PartialBar where
  openPrice : ℚ
  highPrice : ℚ
  lowPrice : ℚ
  closePrice : ℚ
  volume : ℚ
  tsStart : Nat
  tsLast : Nat
  tickCount : Nat
  deriving DecidableEq, Repr

/-- `BarAggregator`. -/
structure BarAggregator where
  barType : BarType
  currentBar : Option PartialBar
  completedBars : List Bar
  lastClose : Option ℚ
  deriving DecidableEq, Repr

/-- `BarAggregator::new`. -/
def BarAggregator.mkNew (barType : BarType) : BarAggregator :=
  ⟨barType, none, [], none⟩

/-- `BarAggregator::should_close_bar`. -/
def shouldCloseBar (barType : BarType) (pb : PartialBar) (currentTs : Nat) : Bool :=
  match barType.barSpec.aggregation with
  | .tick count => pb.tickCount ≥ count
  | .volume amount => pb.volume ≥ (amount : ℚ)
  | .dollar amount => pb.volume * pb.closePrice ≥ (amount : ℚ)
  | .time durationNanos => currentTs - pb.tsStart ≥ durationNanos

/-- `BarAggregator::close_current_bar`: emit the bar, remember the close,
append to the bounded completed ring (`Vec::remove(0)` past 1000). -/
def closeCurrentBar (agg : BarAggregator) (tsClose : Nat) : Option Bar × BarAggregator :=
  match agg.currentBar with
  | some pb =>
    let bar : Bar := ⟨agg.barType, pb.openPrice, pb.highPrice, pb.lowPrice,
      pb.closePrice, pb.volume, pb.tsLast, tsClose⟩
    let completed := agg.completedBars ++ [bar]
    let completed := if completed.length > 1000 then completed.drop 1 else completed
    (some bar, { agg with
      currentBar := none
      lastClose := some pb.closePrice
      completedBars := completed })
  | none => (none, agg)

/-- `BarAggregator::update_with_trade`: start a fresh partial bar (without
evaluating the close predicate) or fold the tick into the open one and
evaluate the predicate once. -/
def updateWithTrade (agg : BarAggregator) (tick : TradeTick) : Option Bar × BarAggregator :=
  match agg.currentBar with
  | some pb =>
    let pb' : PartialBar := { pb with
      highPrice := max pb.highPrice tick.price
      lowPrice := min pb.lowPrice tick.price
      closePrice := tick.price
      volume := pb.volume + tick.size
      tsLast := tick.tsEvent
      tickCount := pb.tickCount + 1 }
    let agg' := { agg with currentBar := some pb' }
    if shouldCloseBar agg'.barType pb' tick.tsEvent then
      closeCurrentBar agg' tick.tsEvent
    else (none, agg')
  | none =>
    let pb0 : PartialBar := ⟨tick.price, tick.price, tick.price, tick.price,
      tick.size, tick.tsEvent, tick.tsEvent, 1⟩
    (none, { agg with currentBar := some pb0 })

/-- Ghost instrumentation: run the aggregator over a tick stream and record,
for each emitted bar, the `tick_count` of the partial bar at close (the
number of ticks folded into that bar). -/
def emitCounts (agg : BarAggregator) : List TradeTick → List Nat
  | [] => []
  | t :: ts =>
    let r := updateWithTrade agg t
    match r.1, agg.currentBar with
    | some _, some pb => (pb.tickCount + 1) :: emitCounts r.2 ts
    | _, _ => emitCounts r.2 ts

/-- A fresh `Tick(n)` aggregator (instrument id 0, step `n`). -/
def freshTickAgg (n : Nat) : BarAggregator :=
  BarAggregator.mkNew ⟨0, ⟨n, .tick n⟩⟩

/-- Reachability invariant of a `Tick(n)` aggregator: an open partial bar has
`tick_count ≥ 1` and is either freshly started (`tick_count = 1`) or still
below the threshold. -/
def TickInv (n : Nat) (agg : BarAggregator) : Prop :=
  ∀ pb, agg.currentBar = some pb →
    1 ≤ pb.tickCount ∧ (pb.tickCount = 1 ∨ pb.tickCount < n)

theorem emitCounts_eq_max {n : Nat} :
    ∀ (ticks : List TradeTick) (agg : BarAggregator),
      agg.barType.barSpec.aggregation = .tick n → TickInv n agg →
      ∀ c ∈ emitCounts agg ticks, c = max n 2 := by
  intro ticks
  induction ticks with
  | nil => intro agg _ _ c hc; simp [emitCounts] at hc
  | cons t ts ih =>
    intro agg hspec hinv c hc
    simp only [emitCounts] at hc
    cases hcur : agg.currentBar with
    | none =>
      rw [hcur] at hc
      simp only [updateWithTrade, hcur] at hc
      refine ih _ (by simpa using hspec) ?_ c hc
      intro pb hpb
      simp at hpb
      subst hpb
      exact ⟨le_refl 1, Or.inl rfl⟩
    | some pb =>
      rw [hcur] at hc
      simp only [updateWithTrade, hcur] at hc
      by_cases hclose : shouldCloseBar agg.barType
          { pb with
            highPrice := max pb.highPrice t.price
            lowPrice := min pb.lowPrice t.price
            closePrice := t.price
            volume := pb.volume + t.size
            tsLast := t.tsEvent
            tickCount := pb.tickCount + 1 } t.tsEvent = true
      · rw [if_pos (by simpa using hclose)] at hc
        simp only [closeCurrentBar] at hc
        have hthr : pb.tickCount + 1 ≥ n := by
          simpa [shouldCloseBar, hspec] using hclose
        obtain ⟨h1, h2⟩ := hinv pb hcur
        rcases List.mem_cons.mp hc with hceq | hcrest
        · subst hceq
          rcases h2 with h2 | h2
          · rw [Nat.max_def]; split <;> omega
          · rw [Nat.max_def]; split <;> omega
        · refine ih _ (by simpa using hspec) ?_ c hcrest
          intro pb' hpb'
          simp at hpb'
      · rw [if_neg (by simpa using hclose)] at hc
        have hthr : ¬ pb.tickCount + 1 ≥ n := by
          intro h
          exact hclose (by simpa [shouldCloseBar, hspec] using h)
        refine ih _ (by simpa using hspec) ?_ c hc
        intro pb' hpb'
        simp at hpb'
        subst hpb'
        refine ⟨by show 1 ≤ pb.tickCount + 1; omega,
          Or.inr (by show pb.tickCount + 1 < n; omega)⟩

/-- C4, the claim as spec'd, specialised to its `n = 1` corner: a `Tick(1)`
bar closes on its first tick. -/
def C4ClaimTickOne : Prop :=
  ∀ t : TradeTick, (updateWithTrade (freshTickAgg 1) t).1.isSome = true

/-- **C4 counterexample.**  A tick that *starts* a partial bar never evaluates
the close predicate (`update_with_trade` returns `false` for `should_close`
from the `None` arm), so a fresh `Tick(1)` aggregator emits nothing on its
first tick; the bar closes only on the second tick, with 2 ticks in it. -/
theorem c4_counterexample_tick1_first_tick :
    (updateWithTrade (freshTickAgg 1)
      ⟨0, 100, 1, .buyer, "t1", 1, 1⟩).1 = none ∧
    emitCounts (freshTickAgg 1)
      [⟨0, 100, 1, .buyer, "t1", 1, 1⟩, ⟨0, 101, 1, .buyer, "t2", 2, 2⟩] = [2] ∧
    ¬ C4ClaimTickOne := by
  refine ⟨rfl, by decide, ?_⟩
  intro h
  have := h ⟨0, 100, 1, .buyer, "t1", 1, 1⟩
  simp [updateWithTrade, freshTickAgg, BarAggregator.mkNew] at this

/-- **C4** (corrected).  For a `Tick(n)` aggregator:
1. a tick arriving with no open bar starts a partial bar with
   `tick_count = 1` and the close predicate is **not** evaluated — no bar can
   be emitted by such a tick;
2. a tick arriving with an open bar folds into it and evaluates the predicate
   exactly once, closing iff the updated `tick_count ≥ n`;
3. consequently every bar emitted from a fresh `Tick(n)` aggregator contains
   exactly `max(n, 2)` ticks — `n` ticks for `n ≥ 2` as claimed, but `2`
   (not `1`) for `n = 1`, since the predicate is skipped on the bar-starting
   tick. -/
theorem c4_tick_bar_close_contract :
    (∀ (agg : BarAggregator) (t : TradeTick), agg.currentBar = none →
      (updateWithTrade agg t).1 = none ∧
      ∃ pb, (updateWithTrade agg t).2.currentBar = some pb ∧ pb.tickCount = 1) ∧
    (∀ (n : Nat) (agg : BarAggregator) (pb : PartialBar) (t : TradeTick),
      agg.barType.barSpec.aggregation = .tick n → agg.currentBar = some pb →
      ((updateWithTrade agg t).1.isSome = true ↔ pb.tickCount + 1 ≥ n)) ∧
    (∀ (n : Nat) (ticks : List TradeTick),
      ∀ c ∈ emitCounts (freshTickAgg n) ticks, c = max n 2) := by
  refine ⟨?_, ?_, ?_⟩
  · intro agg t hcur
    simp [updateWithTrade, hcur]
  · intro n agg pb t hspec hcur
    simp only [updateWithTrade, hcur]
    by_cases hthr : pb.tickCount + 1 ≥ n
    · rw [if_pos (by simpa [shouldCloseBar, hspec] using hthr)]
      simp only [closeCurrentBar]
      simpa using hthr
    · rw [if_neg (by simpa [shouldCloseBar, hspec] using hthr)]
      simpa using hthr
  · intro n ticks c hc
    exact emitCounts_eq_max ticks (freshTickAgg n) rfl
      (by intro pb hpb; simp [freshTickAgg, BarAggregator.mkNew] at hpb) c hc

/-- Witness for C4: the contract applied to a concrete aggregator and tick. -/
theorem c4_tick_bar_close_contract_witness :
    ((updateWithTrade (freshTickAgg 3) ⟨0, 100, 1, .buyer, "t", 5, 5⟩).1 = none ∧
      ∃ pb, (updateWithTrade (freshTickAgg 3)
        ⟨0, 100, 1, .buyer, "t", 5, 5⟩).2.currentBar = some pb ∧ pb.tickCount = 1) ∧
    ((updateWithTrade
        { freshTickAgg 3 with currentBar := some ⟨100, 100, 100, 100, 1, 5, 5, 2⟩ }
        ⟨0, 101, 1, .buyer, "t2", 6, 6⟩).1.isSome = true ↔ 2 + 1 ≥ 3) :=
  ⟨c4_tick_bar_close_contract.1 (freshTickAgg 3) ⟨0, 100, 1, .buyer, "t", 5, 5⟩ rfl,
   c4_tick_bar_close_contract.2.1 3 _ ⟨100, 100, 100, 100, 1, 5, 5, 2⟩
     ⟨0, 101, 1, .buyer, "t2", 6, 6⟩ rfl rfl⟩

/-! ## Strategy engine dispatch (crates/core/src/strategy_engine.rs)

The engine stores `HashMap<StrategyId, (Box<dyn Strategy>, StrategyContext)>`
and each dispatcher iterates the map, invoking the callback with `?` on every
eligible strategy.  The map's (arbitrary) iteration order is modelled as list
order.  User strategies are trait objects; the model covers the family of
strategies whose callback records the event (incrementing `received`) and
returns the fixed result `callbackResult` (`none` = `Ok(())`,
`some e` = `Err(e)`) — enough to observe which strategies a dispatch call
reaches and what it returns. -/

/-- `StrategyState`. -/
inductive StrategyState where
  | initialized
  | running
  | paused
  | stopped
  | errorState
  deriving DecidableEq, Repr

/-- One registered strategy with the dispatch-relevant part of its context. -/
structure StratEntry where
  strategyId : Nat
  state : StrategyState
  instruments : List Nat
  callbackResult : Option String
  received : Nat
  deriving DecidableEq, Repr

/-- `StrategyContext::is_active`. -/
def StratEntry.isActive (s : StratEntry) : Bool := s.state = .running

/-- The observable effect of a callback invocation on the strategy. -/
def bumpReceived (s : StratEntry) : StratEntry :=
  { s with received := s.received + 1 }

/-- The `for (_, (strategy, context)) in &mut self.strategies { if elig {
strategy.on_xxx(..)?; } }` loop: the `?` aborts the whole dispatch on the
first callback error, leaving later strategies untouched. -/
def dispatchFrom (elig : StratEntry → Bool) :
    List StratEntry → Except String Unit × List StratEntry
  | [] => (.ok (), [])
  | s :: rest =>
    if elig s then
      match s.callbackResult with
      | some e => (.error e, bumpReceived s :: rest)
      | none =>
        let r := dispatchFrom elig rest
        (r.1, bumpReceived s :: r.2)
    else
      let r := dispatchFrom elig rest
      (r.1, s :: r.2)

/-- `StrategyEngine` (dispatch-relevant state). -/
structure StrategyEngineM where
  strategies : List StratEntry
  isRunning : Bool
  deriving DecidableEq, Repr

/-- Eligibility in `process_trade_tick` / `process_quote_tick`:
`context.is_active() && config.instruments.contains(&tick.instrument_id)`. -/
def tickEligible (instr : Nat) (s : StratEntry) : Bool :=
  s.isActive && instr ∈ s.instruments

/-- `StrategyEngine::process_trade_tick` (no-op unless running). -/
def processTradeTickM (eng : StrategyEngineM) (instr : Nat) :
    Except String Unit × StrategyEngineM :=
  if eng.isRunning then
    let r := dispatchFrom (tickEligible instr) eng.strategies
    (r.1, { eng with strategies := r.2 })
  else (.ok (), eng)

/-- `StrategyEngine::process_quote_tick` — same loop and filter as trade. -/
def processQuoteTickM (eng : StrategyEngineM) (instr : Nat) :
    Except String Unit × StrategyEngineM :=
  if eng.isRunning then
    let r := dispatchFrom (tickEligible instr) eng.strategies
    (r.1, { eng with strategies := r.2 })
  else (.ok (), eng)

/-- `StrategyEngine::process_bar`: bars go to every active strategy
(no instrument filter). -/
def processBarM (eng : StrategyEngineM) :
    Except String Unit × StrategyEngineM :=
  if eng.isRunning then
    let r := dispatchFrom StratEntry.isActive eng.strategies
    (r.1, { eng with strategies := r.2 })
  else (.ok (), eng)

/-- `StrategyEngine::process_timer` — same loop and filter as bars. -/
def processTimerM (eng : StrategyEngineM) :
    Except String Unit × StrategyEngineM :=
  if eng.isRunning then
    let r := dispatchFrom StratEntry.isActive eng.strategies
    (r.1, { eng with strategies := r.2 })
  else (.ok (), eng)

/-- Total number of callback deliveries observed across the registry. -/
def totalReceived (l : List StratEntry) : Nat := (l.map StratEntry.received).sum

/-- C5, the claim as spec'd: when a callback errors during a dispatch, the
error is surfaced *and* every other eligible strategy still receives the
event — i.e. every dispatch delivers to all eligible strategies. -/
def C5Claim : Prop :=
  ∀ (eng : StrategyEngineM) (instr : Nat),
    eng.isRunning = true →
    totalReceived (processTradeTickM eng instr).2.strategies =
      totalReceived eng.strategies +
        (eng.strategies.filter (tickEligible instr)).length

/-- **C5 counterexample.**  Two active strategies subscribed to instrument 7;
the first one's callback errors.  The `?` in the dispatch loop aborts it, so
only one delivery happens instead of two: the second strategy never receives
the event. -/
theorem c5_counterexample_dispatch_aborts :
    (processTradeTickM
        ⟨[⟨1, .running, [7], some "boom", 0⟩, ⟨2, .running, [7], none, 0⟩], true⟩
        7).1 = .error "boom" ∧
    (processTradeTickM
        ⟨[⟨1, .running, [7], some "boom", 0⟩, ⟨2, .running, [7], none, 0⟩], true⟩
        7).2.strategies.map StratEntry.received = [1, 0] ∧
    ¬ C5Claim := by
  refine ⟨rfl, rfl, ?_⟩
  intro h
  have := h ⟨[⟨1, .running, [7], some "boom", 0⟩, ⟨2, .running, [7], none, 0⟩], true⟩
    7 rfl
  simp [processTradeTickM, dispatchFrom, tickEligible, StratEntry.isActive,
    bumpReceived, totalReceived, List.filter] at this

theorem dispatchFrom_all_ok (elig : StratEntry → Bool) :
    ∀ l : List StratEntry, (∀ s ∈ l, elig s = true → s.callbackResult = none) →
      dispatchFrom elig l =
        (.ok (), l.map fun s => if elig s then bumpReceived s else s) := by
  intro l
  induction l with
  | nil => intro _; rfl
  | cons s rest ih =>
    intro h
    by_cases he : elig s = true
    · have hcb := h s (List.mem_cons_self s rest) he
      simp only [dispatchFrom, if_pos he, hcb,
        ih fun t ht => h t (List.mem_cons_of_mem s ht), List.map_cons]
    · simp only [dispatchFrom, if_neg he,
        ih fun t ht => h t (List.mem_cons_of_mem s ht), List.map_cons,
        if_neg he]

theorem dispatchFrom_error (elig : StratEntry → Bool) :
    ∀ (pre : List StratEntry) (s : StratEntry) (post : List StratEntry) (e : String),
      (∀ t ∈ pre, elig t = true → t.callbackResult = none) →
      elig s = true → s.callbackResult = some e →
      dispatchFrom elig (pre ++ s :: post) =
        (.error e,
          (pre.map fun t => if elig t then bumpReceived t else t) ++
            bumpReceived s :: post) := by
  intro pre
  induction pre with
  | nil =>
    intro s post e _ hs hcb
    simp only [List.nil_append, dispatchFrom, if_pos hs, hcb, List.map_nil]
  | cons t pre' ih =>
    intro s post e h hs hcb
    have hrec := ih s post e (fun u hu => h u (List.mem_cons_of_mem t hu)) hs hcb
    by_cases he : elig t = true
    · have hcbt := h t (List.mem_cons_self t pre') he
      simp only [List.cons_append, dispatchFrom, if_pos he, hcbt, List.append_eq,
        hrec, List.map_cons, List.cons_append]
    · simp only [List.cons_append, dispatchFrom, if_neg he, List.append_eq,
        hrec, List.map_cons, if_neg he, List.cons_append]

/-- **C5** (corrected).  A callback error *is* surfaced to the caller, but the
`?` operator aborts the dispatch loop at the erroring strategy: strategies
earlier in the iteration (the map's order) have already received the event,
the erroring strategy's callback ran, and strategies after it do **not**
receive the event in that dispatch call.  When no eligible callback errors,
every eligible strategy receives the event and the call returns `Ok`.
Stated for the trade-tick dispatcher and the bar dispatcher; the quote-tick
and timer dispatchers are definitionally the same loops. -/
theorem c5_dispatch_stops_at_first_error :
    (∀ (eng : StrategyEngineM) (instr : Nat),
      eng.isRunning = true →
      (∀ s ∈ eng.strategies, tickEligible instr s = true → s.callbackResult = none) →
      processTradeTickM eng instr =
        (.ok (), { eng with strategies := (eng.strategies.map fun s =>
          if tickEligible instr s then bumpReceived s else s) })) ∧
    (∀ (eng : StrategyEngineM) (instr : Nat) (pre : List StratEntry)
        (s : StratEntry) (post : List StratEntry) (e : String),
      eng.isRunning = true →
      eng.strategies = pre ++ s :: post →
      (∀ t ∈ pre, tickEligible instr t = true → t.callbackResult = none) →
      tickEligible instr s = true → s.callbackResult = some e →
      processTradeTickM eng instr =
        (.error e, { eng with strategies :=
          ((pre.map fun t => if tickEligible instr t then bumpReceived t else t) ++
            bumpReceived s :: post) })) ∧
    (∀ (eng : StrategyEngineM) (pre : List StratEntry)
        (s : StratEntry) (post : List StratEntry) (e : String),
      eng.isRunning = true →
      eng.strategies = pre ++ s :: post →
      (∀ t ∈ pre, t.isActive = true → t.callbackResult = none) →
      s.isActive = true → s.callbackResult = some e →
      processBarM eng =
        (.error e, { eng with strategies :=
          ((pre.map fun t => if t.isActive then bumpReceived t else t) ++
            bumpReceived s :: post) })) := by
  refine ⟨?_, ?_, ?_⟩
  · intro eng instr hrun hok
    simp only [processTradeTickM, if_pos hrun,
      dispatchFrom_all_ok (tickEligible instr) eng.strategies hok]
  · intro eng instr pre s post e hrun hsplit hpre hs hcb
    simp only [processTradeTickM, if_pos hrun, hsplit,
      dispatchFrom_error (tickEligible instr) pre s post e hpre hs hcb]
  · intro eng pre s post e hrun hsplit hpre hs hcb
    simp only [processBarM, if_pos hrun, hsplit,
      dispatchFrom_error StratEntry.isActive pre s post e hpre hs hcb]

/-- Witness for C5: the corrected dispatch behaviour on concrete engines. -/
theorem c5_dispatch_stops_at_first_error_witness :
    processTradeTickM
        ⟨[⟨1, .running, [7], none, 0⟩, ⟨2, .running, [7], none, 0⟩], true⟩ 7 =
      (.ok (), ⟨[⟨1, .running, [7], none, 1⟩, ⟨2, .running, [7], none, 1⟩], true⟩) ∧
    processTradeTickM
        ⟨[⟨1, .running, [7], some "boom", 0⟩, ⟨2, .running, [7], none, 0⟩], true⟩ 7 =
      (.error "boom",
        ⟨[⟨1, .running, [7], some "boom", 1⟩, ⟨2, .running, [7], none, 0⟩], true⟩) := by
  constructor
  · have := c5_dispatch_stops_at_first_error.1
      ⟨[⟨1, .running, [7], none, 0⟩, ⟨2, .running, [7], none, 0⟩], true⟩ 7
      rfl (by decide)
    rw [this]
    rfl
  · have := c5_dispatch_stops_at_first_error.2.1
      ⟨[⟨1, .running, [7], some "boom", 0⟩, ⟨2, .running, [7], none, 0⟩], true⟩ 7
      [] ⟨1, .running, [7], some "boom", 0⟩ [⟨2, .running, [7], none, 0⟩] "boom"
      rfl rfl (by decide) (by decide) rfl
    rw [this]
    rfl

/-! ## Order book (crates/model/src/orderbook.rs)

The two `BTreeMap<Price, VecDeque<BookOrder>>` sides are modelled as
association lists kept in ascending key order — exactly a `BTreeMap`'s
in-order view.  `keys().next_back()` is then `getLast?` and `keys().next()`
is `head?`.  `Quantity` wraps the raw `u64` as `Nat`. -/

/-- `model::enums::OrderSide`. -/
inductive MOrderSide where
  | buy
  | sell
  deriving DecidableEq, Repr

/-- `Quantity`: transparent wrapper over the raw `u64` (scale `10⁸`). -/
structure Quantity where
  raw : Nat
  deriving DecidableEq, Repr

/-- `BookOrder`. -/
structure BookOrder where
  side : MOrderSide
  price : Price
  size : Quantity
  orderId : Nat
  deriving DecidableEq, Repr

/-- `OrderBook`. -/
structure OrderBook where
  instrumentId : MInstrumentId
  bids : List (Price × List BookOrder)
  asks : List (Price × List BookOrder)
  sequence : Nat
  tsLast : Nat
  count : Nat
  bestBidPrice : Option Price
  bestAskPrice : Option Price
  deriving DecidableEq

/-- `OrderBook::new`. -/
def OrderBook.mkNew (instrumentId : MInstrumentId) : OrderBook :=
  ⟨instrumentId, [], [], 0, 0, 0, none, none⟩

/-- `BTreeMap::entry(price).or_insert_with(VecDeque::new)` followed by
`push_back(order)`, on the ascending-ordered level list. -/
def levelAdd (price : Price) (order : BookOrder) :
    List (Price × List BookOrder) → List (Price × List BookOrder)
  | [] => [(price, [order])]
  | (k, q) :: rest =>
    if price.raw < k.raw then (price, [order]) :: (k, q) :: rest
    else if price.raw = k.raw then (k, q ++ [order]) :: rest
    else (k, q) :: levelAdd price order rest

/-- `iter().position(|o| o.order_id == order_id)` + `remove(position)`:
remove the first queue element with the given id, returning it. -/
def removeFromQueue (orderId : Nat) :
    List BookOrder → Option (BookOrder × List BookOrder)
  | [] => none
  | o :: rest =>
    if o.orderId = orderId then some (o, rest)
    else (removeFromQueue orderId rest).map fun r => (r.1, o :: r.2)

/-- `get_mut(&price)`, queue removal, and `remove(&price)` when the queue
empties; `none` (no mutation) when the level or the order is absent. -/
def levelRemove (price : Price) (orderId : Nat) :
    List (Price × List BookOrder) →
    Option (BookOrder × List (Price × List BookOrder))
  | [] => none
  | (k, q) :: rest =>
    if k.raw = price.raw then
      match removeFromQueue orderId q with
      | none => none
      | some (o, q') =>
        some (o, if q' = [] then rest else (k, q') :: rest)
    else (levelRemove price orderId rest).map fun r => (r.1, (k, q) :: r.2)

/-- `OrderBook::update_best_prices`: cached tops from the keyset extremes. -/
def OrderBook.updateBestPrices (b : OrderBook) : OrderBook :=
  { b with
    bestBidPrice := (b.bids.map Prod.fst).getLast?
    bestAskPrice := (b.asks.map Prod.fst).head? }

/-- `OrderBook::add`: stamp `sequence`/`ts_last`, append at the price level,
bump `count`, refresh the cached tops. -/
def OrderBook.add (b : OrderBook) (order : BookOrder) (sequence ts : Nat) :
    OrderBook :=
  match order.side with
  | .buy => OrderBook.updateBestPrices
      { b with
        sequence := sequence
        tsLast := ts
        bids := levelAdd order.price order b.bids
        count := b.count + 1 }
  | .sell => OrderBook.updateBestPrices
      { b with
        sequence := sequence
        tsLast := ts
        asks := levelAdd order.price order b.asks
        count := b.count + 1 }

/-- `OrderBook::remove`. -/
def OrderBook.removeOrder (b : OrderBook) (orderId : Nat) (side : MOrderSide)
    (price : Price) : Option BookOrder × OrderBook :=
  match side with
  | .buy =>
    match levelRemove price orderId b.bids with
    | none => (none, b)
    | some (o, bids') =>
      (some o, OrderBook.updateBestPrices
        { b with bids := bids', count := b.count - 1 })
  | .sell =>
    match levelRemove price orderId b.asks with
    | none => (none, b)
    | some (o, asks') =>
      (some o, OrderBook.updateBestPrices
        { b with asks := asks', count := b.count - 1 })

/-- One `add` or `remove` call. -/
inductive BookOp where
  | add (order : BookOrder) (sequence ts : Nat)
  | removeOrder (orderId : Nat) (side : MOrderSide) (price : Price)
  deriving DecidableEq

def applyBookOp (b : OrderBook) : BookOp → OrderBook
  | .add order sequence ts => b.add order sequence ts
  | .removeOrder orderId side price => (b.removeOrder orderId side price).2

def runBookOps (b : OrderBook) (ops : List BookOp) : OrderBook :=
  ops.foldl applyBookOp b

/-- Total queued orders across a side's levels. -/
def countOrders (levels : List (Price × List BookOrder)) : Nat :=
  (levels.map fun l => l.2.length).sum

/-- Level keys strictly ascend (the `BTreeMap` in-order invariant). -/
def SortedLevels (levels : List (Price × List BookOrder)) : Prop :=
  List.Pairwise (fun a b => a.1.raw < b.1.raw) levels

/-- No retained level has an empty queue. -/
def NoEmptyLevel (levels : List (Price × List BookOrder)) : Prop :=
  ∀ l ∈ levels, l.2 ≠ []

/-- The full order-book integrity invariant. -/
def WfBook (b : OrderBook) : Prop :=
  SortedLevels b.bids ∧ SortedLevels b.asks ∧
  NoEmptyLevel b.bids ∧ NoEmptyLevel b.asks ∧
  b.count = countOrders b.bids + countOrders b.asks ∧
  b.bestBidPrice = (b.bids.map Prod.fst).getLast? ∧
  b.bestAskPrice = (b.asks.map Prod.fst).head?

theorem levelAdd_keys_raw (p : Price) (o : BookOrder) :
    ∀ (l : List (Price × List BookOrder)), ∀ x ∈ levelAdd p o l,
      x.1.raw = p.raw ∨ x.1.raw ∈ l.map fun e => e.1.raw := by
  intro l
  induction l with
  | nil =>
    intro x hx
    simp only [levelAdd, List.mem_singleton] at hx
    simp [hx]
  | cons e rest ih =>
    obtain ⟨k, q⟩ := e
    intro x hx
    simp only [levelAdd] at hx
    split at hx
    · rcases List.mem_cons.mp hx with h | h
      · simp [h]
      · rcases List.mem_cons.mp h with h' | h'
        · simp [h']
        · exact Or.inr (List.mem_map.mpr ⟨x, List.mem_cons_of_mem _ h', rfl⟩)
    · split at hx
      · rename_i hlt heq
        rcases List.mem_cons.mp hx with h | h
        · left; rw [h]; exact heq.symm
        · exact Or.inr (List.mem_map.mpr ⟨x, List.mem_cons_of_mem _ h, rfl⟩)
      · rcases List.mem_cons.mp hx with h | h
        · exact Or.inr (by simp [h])
        · rcases ih x h with h' | h'
          · exact Or.inl h'
          · refine Or.inr ?_
            rw [List.map_cons]
            exact List.mem_cons_of_mem _ h'

theorem levelAdd_sorted (p : Price) (o : BookOrder) :
    ∀ (l : List (Price × List BookOrder)), SortedLevels l →
      SortedLevels (levelAdd p o l) := by
  intro l
  induction l with
  | nil => intro _; simp [levelAdd, SortedLevels]
  | cons e rest ih =>
    obtain ⟨k, q⟩ := e
    intro h
    obtain ⟨hhead, htail⟩ := List.pairwise_cons.mp h
    simp only [levelAdd]
    split
    · rename_i hlt
      refine List.pairwise_cons.mpr ⟨?_, h⟩
      intro x hx
      rcases List.mem_cons.mp hx with h' | h'
      · rw [h']; exact hlt
      · exact lt_trans hlt (hhead x h')
    · split
      · rename_i hlt heq
        refine List.pairwise_cons.mpr ⟨?_, htail⟩
        intro x hx
        exact hhead x hx
      · rename_i hlt heq
        refine List.pairwise_cons.mpr ⟨?_, ih htail⟩
        intro x hx
        rcases levelAdd_keys_raw p o rest x hx with h' | h'
        · rw [h']
          show k.raw < p.raw
          omega
        · simp only [List.mem_map] at h'
          obtain ⟨y, hy, hyeq⟩ := h'
          rw [← hyeq]
          exact hhead y hy

theorem levelAdd_noEmpty (p : Price) (o : BookOrder) :
    ∀ (l : List (Price × List BookOrder)), NoEmptyLevel l →
      NoEmptyLevel (levelAdd p o l) := by
  intro l
  induction l with
  | nil =>
    intro _ x hx
    simp only [levelAdd, List.mem_singleton] at hx
    simp [hx]
  | cons e rest ih =>
    obtain ⟨k, q⟩ := e
    intro h x hx
    simp only [levelAdd] at hx
    split at hx
    · rcases List.mem_cons.mp hx with h' | h'
      · simp [h']
      · exact h x h'
    · split at hx
      · rcases List.mem_cons.mp hx with h' | h'
        · rw [h']; simp
        · exact h x (List.mem_cons_of_mem _ h')
      · rcases List.mem_cons.mp hx with h' | h'
        · exact h x (h' ▸ List.mem_cons_self _ _)
        · exact ih (fun y hy => h y (List.mem_cons_of_mem _ hy)) x h'

theorem countOrders_levelAdd (p : Price) (o : BookOrder) :
    ∀ (l : List (Price × List BookOrder)),
      countOrders (levelAdd p o l) = countOrders l + 1 := by
  intro l
  induction l with
  | nil => simp [levelAdd, countOrders]
  | cons e rest ih =>
    obtain ⟨k, q⟩ := e
    simp only [levelAdd]
    split
    · simp [countOrders]; omega
    · split
      · simp [countOrders]; omega
      · simp only [countOrders, List.map_cons, List.sum_cons] at ih ⊢
        omega

theorem removeFromQueue_length (oid : Nat) :
    ∀ (q : List BookOrder) (o : BookOrder) (q' : List BookOrder),
      removeFromQueue oid q = some (o, q') → q'.length + 1 = q.length := by
  intro q
  induction q with
  | nil => intro o q' h; simp [removeFromQueue] at h
  | cons x rest ih =>
    intro o q' h
    simp only [removeFromQueue] at h
    split at h
    · simp only [Option.some.injEq, Prod.mk.injEq] at h
      rw [← h.2]
      simp
    · cases hrec : removeFromQueue oid rest with
      | none => rw [hrec] at h; simp at h
      | some r =>
        rw [hrec] at h
        obtain ⟨o2, rest'⟩ := r
        simp only [Option.map_some', Option.some.injEq, Prod.mk.injEq] at h
        have := ih o2 rest' hrec
        rw [← h.2]
        simp only [List.length_cons]
        omega

theorem levelRemove_mem_keys (p : Price) (oid : Nat) :
    ∀ (l : List (Price × List BookOrder)) (o : BookOrder)
      (l' : List (Price × List BookOrder)),
      levelRemove p oid l = some (o, l') →
      ∀ x ∈ l', x.1.raw ∈ l.map fun e => e.1.raw := by
  intro l
  induction l with
  | nil => intro o l' h; simp [levelRemove] at h
  | cons e rest ih =>
    obtain ⟨k, q⟩ := e
    intro o l' h x hx
    simp only [levelRemove] at h
    split at h
    · cases hq : removeFromQueue oid q with
      | none => rw [hq] at h; simp at h
      | some r =>
        rw [hq] at h
        obtain ⟨o', q'⟩ := r
        simp only [Option.some.injEq, Prod.mk.injEq] at h
        rw [← h.2] at hx
        split at hx
        · exact List.mem_map.mpr ⟨x, List.mem_cons_of_mem _ hx, rfl⟩
        · rcases List.mem_cons.mp hx with h' | h'
          · simp [h']
          · exact List.mem_map.mpr ⟨x, List.mem_cons_of_mem _ h', rfl⟩
    · cases hrec : levelRemove p oid rest with
      | none => rw [hrec] at h; simp at h
      | some r =>
        rw [hrec] at h
        obtain ⟨o', rest'⟩ := r
        simp only [Option.map_some', Option.some.injEq, Prod.mk.injEq] at h
        rw [← h.2] at hx
        rcases List.mem_cons.mp hx with h' | h'
        · simp [h']
        · have := ih o' rest' hrec x h'
          simp only [List.map_cons, List.mem_cons]
          exact Or.inr (by simpa using this)

theorem levelRemove_sorted (p : Price) (oid : Nat) :
    ∀ (l : List (Price × List BookOrder)) (o : BookOrder)
      (l' : List (Price × List BookOrder)),
      SortedLevels l → levelRemove p oid l = some (o, l') → SortedLevels l' := by
  intro l
  induction l with
  | nil => intro o l' _ h; simp [levelRemove] at h
  | cons e rest ih =>
    obtain ⟨k, q⟩ := e
    intro o l' hs h
    obtain ⟨hhead, htail⟩ := List.pairwise_cons.mp hs
    simp only [levelRemove] at h
    split at h
    · cases hq : removeFromQueue oid q with
      | none => rw [hq] at h; simp at h
      | some r =>
        rw [hq] at h
        obtain ⟨o', q'⟩ := r
        simp only [Option.some.injEq, Prod.mk.injEq] at h
        rw [← h.2]
        split
        · exact htail
        · exact List.pairwise_cons.mpr ⟨fun x hx => hhead x hx, htail⟩
    · cases hrec : levelRemove p oid rest with
      | none => rw [hrec] at h; simp at h
      | some r =>
        rw [hrec] at h
        obtain ⟨o', rest'⟩ := r
        simp only [Option.map_some', Option.some.injEq, Prod.mk.injEq] at h
        rw [← h.2]
        refine List.pairwise_cons.mpr ⟨?_, ih o' rest' htail hrec⟩
        intro x hx
        have := levelRemove_mem_keys p oid rest o' rest' hrec x hx
        simp only [List.mem_map] at this
        obtain ⟨y, hy, hyeq⟩ := this
        rw [← hyeq]
        exact hhead y hy

theorem levelRemove_noEmpty (p : Price) (oid : Nat) :
    ∀ (l : List (Price × List BookOrder)) (o : BookOrder)
      (l' : List (Price × List BookOrder)),
      NoEmptyLevel l → levelRemove p oid l = some (o, l') → NoEmptyLevel l' := by
  intro l
  induction l with
  | nil => intro o l' _ h; simp [levelRemove] at h
  | cons e rest ih =>
    obtain ⟨k, q⟩ := e
    intro o l' hn h
    simp only [levelRemove] at h
    split at h
    · cases hq : removeFromQueue oid q with
      | none => rw [hq] at h; simp at h
      | some r =>
        rw [hq] at h
        obtain ⟨o', q'⟩ := r
        simp only [Option.some.injEq, Prod.mk.injEq] at h
        rw [← h.2]
        split
        · exact fun x hx => hn x (List.mem_cons_of_mem _ hx)
        · rename_i hq'
          intro x hx
          rcases List.mem_cons.mp hx with h' | h'
          · rw [h']; exact hq'
          · exact hn x (List.mem_cons_of_mem _ h')
    · cases hrec : levelRemove p oid rest with
      | none => rw [hrec] at h; simp at h
      | some r =>
        rw [hrec] at h
        obtain ⟨o', rest'⟩ := r
        simp only [Option.map_some', Option.some.injEq, Prod.mk.injEq] at h
        rw [← h.2]
        intro x hx
        rcases List.mem_cons.mp hx with h' | h'
        · exact hn x (h' ▸ List.mem_cons_self _ _)
        · exact ih o' rest' (fun y hy => hn y (List.mem_cons_of_mem _ hy)) hrec x h'

theorem countOrders_levelRemove (p : Price) (oid : Nat) :
    ∀ (l : List (Price × List BookOrder)) (o : BookOrder)
      (l' : List (Price × List BookOrder)),
      levelRemove p oid l = some (o, l') →
      countOrders l' + 1 = countOrders l := by
  intro l
  induction l with
  | nil => intro o l' h; simp [levelRemove] at h
  | cons e rest ih =>
    obtain ⟨k, q⟩ := e
    intro o l' h
    simp only [levelRemove] at h
    split at h
    · cases hq : removeFromQueue oid q with
      | none => rw [hq] at h; simp at h
      | some r =>
        rw [hq] at h
        obtain ⟨o', q'⟩ := r
        simp only [Option.some.injEq, Prod.mk.injEq] at h
        have hlen := removeFromQueue_length oid q o' q' hq
        rw [← h.2]
        split
        · rename_i hq'
          subst hq'
          simp only [List.length_nil] at hlen
          simp only [countOrders, List.map_cons, List.sum_cons]
          omega
        · simp only [countOrders, List.map_cons, List.sum_cons]
          have := removeFromQueue_length oid q o' q' hq
          omega
    · cases hrec : levelRemove p oid rest with
      | none => rw [hrec] at h; simp at h
      | some r =>
        rw [hrec] at h
        obtain ⟨o', rest'⟩ := r
        simp only [Option.map_some', Option.some.injEq, Prod.mk.injEq] at h
        have := ih o' rest' hrec
        rw [← h.2]
        simp only [countOrders, List.map_cons, List.sum_cons] at *
        omega

theorem wfBook_new (instr : MInstrumentId) : WfBook (OrderBook.mkNew instr) := by
  refine ⟨?_, ?_, ?_, ?_, rfl, rfl, rfl⟩ <;>
    simp [OrderBook.mkNew, SortedLevels, NoEmptyLevel]

theorem wfBook_applyBookOp (b : OrderBook) (op : BookOp) (h : WfBook b) :
    WfBook (applyBookOp b op) := by
  obtain ⟨hsb, hsa, hnb, hna, hc, hbb, hba⟩ := h
  cases op with
  | add order sequence ts =>
    obtain ⟨side, price, size, oid⟩ := order
    cases side with
    | buy =>
      refine ⟨levelAdd_sorted _ _ _ hsb, hsa, levelAdd_noEmpty _ _ _ hnb, hna,
        ?_, rfl, rfl⟩
      show b.count + 1 = countOrders (levelAdd price ⟨.buy, price, size, oid⟩ b.bids) +
        countOrders b.asks
      rw [countOrders_levelAdd]
      omega
    | sell =>
      refine ⟨hsb, levelAdd_sorted _ _ _ hsa, hnb, levelAdd_noEmpty _ _ _ hna,
        ?_, rfl, rfl⟩
      show b.count + 1 = countOrders b.bids +
        countOrders (levelAdd price ⟨.sell, price, size, oid⟩ b.asks)
      rw [countOrders_levelAdd]
      omega
  | removeOrder orderId side price =>
    cases side with
    | buy =>
      show WfBook (OrderBook.removeOrder b orderId .buy price).2
      simp only [OrderBook.removeOrder]
      cases hrem : levelRemove price orderId b.bids with
      | none => exact ⟨hsb, hsa, hnb, hna, hc, hbb, hba⟩
      | some r =>
        obtain ⟨o, bids'⟩ := r
        have hcnt := countOrders_levelRemove price orderId b.bids o bids' hrem
        refine ⟨levelRemove_sorted price orderId b.bids o bids' hsb hrem, hsa,
          levelRemove_noEmpty price orderId b.bids o bids' hnb hrem, hna,
          ?_, rfl, rfl⟩
        show b.count - 1 = countOrders bids' + countOrders b.asks
        omega
    | sell =>
      show WfBook (OrderBook.removeOrder b orderId .sell price).2
      simp only [OrderBook.removeOrder]
      cases hrem : levelRemove price orderId b.asks with
      | none => exact ⟨hsb, hsa, hnb, hna, hc, hbb, hba⟩
      | some r =>
        obtain ⟨o, asks'⟩ := r
        have hcnt := countOrders_levelRemove price orderId b.asks o asks' hrem
        refine ⟨hsb, levelRemove_sorted price orderId b.asks o asks' hsa hrem,
          hnb, levelRemove_noEmpty price orderId b.asks o asks' hna hrem,
          ?_, rfl, rfl⟩
        show b.count - 1 = countOrders b.bids + countOrders asks'
        omega

theorem wfBook_runBookOps (b : OrderBook) (ops : List BookOp) (h : WfBook b) :
    WfBook (runBookOps b ops) := by
  induction ops generalizing b with
  | nil => exact h
  | cons op rest ih => exact ih _ (wfBook_applyBookOp b op h)

/-- For a strictly ascending integer list, the fold underlying `max?` stops at
the last element. -/
theorem foldl_max_of_ascending :
    ∀ (as : List Int) (a : Int), (∀ x ∈ as, a < x) → List.Pairwise (· < ·) as →
      as.foldl max a = (a :: as).getLast (List.cons_ne_nil a as) := by
  intro as
  induction as with
  | nil => intro a _ _; simp
  | cons b t ih =>
    intro a hlt hpw
    obtain ⟨hhead, htail⟩ := List.pairwise_cons.mp hpw
    have hab : a < b := hlt b (List.mem_cons_self b t)
    simp only [List.foldl_cons, max_eq_right (le_of_lt hab)]
    rw [ih b hhead htail]
    rw [List.getLast_cons (List.cons_ne_nil b t)]

/-- For a strictly ascending integer list, the fold underlying `min?` keeps
the first element. -/
theorem foldl_min_of_ascending :
    ∀ (as : List Int) (a : Int), (∀ x ∈ as, a < x) →
      as.foldl min a = a := by
  intro as
  induction as with
  | nil => intro a _; simp
  | cons b t ih =>
    intro a hlt
    have hab : a < b := hlt b (List.mem_cons_self b t)
    simp only [List.foldl_cons, min_eq_left (le_of_lt hab)]
    exact ih a fun x hx => hlt x (List.mem_cons_of_mem b hx)

theorem max?_of_ascending (l : List Int) (h : List.Pairwise (· < ·) l) :
    l.max? = l.getLast? := by
  cases l with
  | nil => rfl
  | cons a as =>
    obtain ⟨hhead, htail⟩ := List.pairwise_cons.mp h
    rw [List.max?_cons', foldl_max_of_ascending as a hhead htail,
      List.getLast?_eq_getLast _ (List.cons_ne_nil a as)]

theorem min?_of_ascending (l : List Int) (h : List.Pairwise (· < ·) l) :
    l.min? = l.head? := by
  cases l with
  | nil => rfl
  | cons a as =>
    obtain ⟨hhead, _⟩ := List.pairwise_cons.mp h
    rw [List.min?_cons', foldl_min_of_ascending as a hhead]
    rfl

/-- **C3** (confirmed).  From a new book, after any sequence of `add` and
`remove` operations: the bid keys read from the best bid outward strictly
descend, the ask keys strictly ascend, no empty price level is retained,
`count` equals the total number of queued orders, and the cached tops are the
maximum bid key and the minimum ask key (`none` on an empty side). -/
theorem c3_order_book_integrity (instr : MInstrumentId) (ops : List BookOp) :
    let b := runBookOps (OrderBook.mkNew instr) ops
    List.Pairwise (· > ·) ((b.bids.map fun l => l.1.raw).reverse) ∧
    List.Pairwise (· < ·) (b.asks.map fun l => l.1.raw) ∧
    NoEmptyLevel b.bids ∧ NoEmptyLevel b.asks ∧
    b.count = countOrders b.bids + countOrders b.asks ∧
    b.bestBidPrice.map Price.raw = (b.bids.map fun l => l.1.raw).max? ∧
    b.bestAskPrice.map Price.raw = (b.asks.map fun l => l.1.raw).min? := by
  intro b
  obtain ⟨hsb, hsa, hnb, hna, hc, hbb, hba⟩ :=
    wfBook_runBookOps (OrderBook.mkNew instr) ops (wfBook_new instr)
  have hsb' : List.Pairwise (· < ·) (b.bids.map fun l => l.1.raw) :=
    List.pairwise_map.mpr hsb
  have hsa' : List.Pairwise (· < ·) (b.asks.map fun l => l.1.raw) :=
    List.pairwise_map.mpr hsa
  refine ⟨List.pairwise_reverse.mpr hsb', hsa', hnb, hna, hc, ?_, ?_⟩
  · rw [max?_of_ascending _ hsb', hbb]
    simp [List.getLast?_map, List.map_map, Option.map_map, Function.comp_def]
  · rw [min?_of_ascending _ hsa', hba]
    simp [List.head?_map, List.map_map, Option.map_map, Function.comp_def]

/-! ## Association-list lemmas (shared by the cache and engine models) -/

section AssocLemmas

variable {κ α : Type _} [DecidableEq κ]

theorem alookup_mem {l : List (κ × α)} {k : κ} {v : α}
    (h : alookup l k = some v) : (k, v) ∈ l := by
  induction l with
  | nil => simp [alookup] at h
  | cons e rest ih =>
    obtain ⟨k', v'⟩ := e
    simp only [alookup] at h
    split at h
    · rename_i heq
      simp only [Option.some.injEq] at h
      subst heq h
      exact List.mem_cons_self _ _
    · exact List.mem_cons_of_mem _ (ih h)

theorem alookup_none_keys {l : List (κ × α)} {k : κ}
    (h : alookup l k = none) : k ∉ l.map Prod.fst := by
  induction l with
  | nil => simp
  | cons e rest ih =>
    obtain ⟨k', v'⟩ := e
    simp only [alookup] at h
    split at h
    · simp at h
    · rename_i hne
      simp only [List.map_cons, List.mem_cons]
      rintro (h' | h')
      · exact hne (h'.symm)
      · exact ih h h'

theorem alookup_of_mem_nodup {l : List (κ × α)} {k : κ} {v : α}
    (hnd : (l.map Prod.fst).Nodup) (h : (k, v) ∈ l) : alookup l k = some v := by
  induction l with
  | nil => simp at h
  | cons e rest ih =>
    obtain ⟨k', v'⟩ := e
    simp only [List.map_cons, List.nodup_cons] at hnd
    rcases List.mem_cons.mp h with h' | h'
    · simp only [Prod.mk.injEq] at h'
      simp [alookup, h'.1, h'.2]
    · have hne : k' ≠ k := by
        intro heq
        exact hnd.1 (heq ▸ List.mem_map.mpr ⟨(k, v), h', rfl⟩)
      simp only [alookup, if_neg hne]
      exact ih hnd.2 h'

theorem mem_ainsert {l : List (κ × α)} {k : κ} {v : α} {x : κ × α}
    (h : x ∈ ainsert l k v) : x = (k, v) ∨ x ∈ l := by
  induction l with
  | nil => simpa [ainsert] using h
  | cons e rest ih =>
    obtain ⟨k', v'⟩ := e
    simp only [ainsert] at h
    split at h
    · rcases List.mem_cons.mp h with h' | h'
      · exact Or.inl h'
      · exact Or.inr (List.mem_cons_of_mem _ h')
    · rcases List.mem_cons.mp h with h' | h'
      · exact Or.inr (h' ▸ List.mem_cons_self _ _)
      · rcases ih h' with h'' | h''
        · exact Or.inl h''
        · exact Or.inr (List.mem_cons_of_mem _ h'')

theorem mem_ainsert_nodup {l : List (κ × α)} {k : κ} {v : α} {x : κ × α}
    (hnd : (l.map Prod.fst).Nodup) (h : x ∈ ainsert l k v) :
    x = (k, v) ∨ (x ∈ l ∧ x.1 ≠ k) := by
  induction l with
  | nil =>
    left
    simpa [ainsert] using h
  | cons e rest ih =>
    obtain ⟨k', v'⟩ := e
    simp only [List.map_cons, List.nodup_cons] at hnd
    simp only [ainsert] at h
    split at h
    · rename_i heq
      subst heq
      rcases List.mem_cons.mp h with h' | h'
      · exact Or.inl h'
      · refine Or.inr ⟨List.mem_cons_of_mem _ h', ?_⟩
        intro hx
        exact hnd.1 (hx ▸ List.mem_map.mpr ⟨x, h', rfl⟩)
    · rename_i hne
      rcases List.mem_cons.mp h with h' | h'
      · exact Or.inr ⟨h' ▸ List.mem_cons_self _ _, by rw [h']; exact hne⟩
      · rcases ih hnd.2 h' with h'' | h''
        · exact Or.inl h''
        · exact Or.inr ⟨List.mem_cons_of_mem _ h''.1, h''.2⟩

theorem ainsert_lookup_self (l : List (κ × α)) (k : κ) (v : α) :
    alookup (ainsert l k v) k = some v := by
  induction l with
  | nil => simp [ainsert, alookup]
  | cons e rest ih =>
    obtain ⟨k', v'⟩ := e
    simp only [ainsert]
    split
    · simp [alookup]
    · rename_i hne
      simp only [alookup, if_neg hne]
      exact ih

theorem ainsert_lookup_other (l : List (κ × α)) (k k' : κ) (v : α)
    (h : k ≠ k') : alookup (ainsert l k' v) k = alookup l k := by
  induction l with
  | nil => simp [ainsert, alookup, if_neg (Ne.symm h)]
  | cons e rest ih =>
    obtain ⟨k₀, v₀⟩ := e
    simp only [ainsert]
    split
    · rename_i heq
      subst heq
      simp [alookup, if_neg (Ne.symm h)]
    · simp only [alookup, ih]

theorem ainsert_of_lookup_none {l : List (κ × α)} {k : κ} (v : α)
    (h : alookup l k = none) : ainsert l k v = l ++ [(k, v)] := by
  induction l with
  | nil => simp [ainsert]
  | cons e rest ih =>
    obtain ⟨k', v'⟩ := e
    simp only [alookup] at h
    split at h
    · simp at h
    · rename_i hne
      simp only [ainsert, if_neg hne, List.cons_append, List.cons.injEq,
        true_and]
      exact ih h

theorem ainsert_keys_nodup {l : List (κ × α)} {k : κ} {v : α}
    (h : (l.map Prod.fst).Nodup) : ((ainsert l k v).map Prod.fst).Nodup := by
  induction l with
  | nil => simp [ainsert]
  | cons e rest ih =>
    obtain ⟨k', v'⟩ := e
    simp only [List.map_cons, List.nodup_cons] at h
    simp only [ainsert]
    split
    · rename_i heq
      subst heq
      simp only [List.map_cons, List.nodup_cons]
      exact ⟨h.1, h.2⟩
    · rename_i hne
      simp only [List.map_cons, List.nodup_cons]
      refine ⟨?_, ih h.2⟩
      intro hmem
      simp only [List.mem_map] at hmem
      obtain ⟨x, hx, hxeq⟩ := hmem
      rcases mem_ainsert hx with h' | h'
      · exact hne (by rw [h'] at hxeq; exact hxeq.symm ▸ rfl)
      · exact h.1 (List.mem_map.mpr ⟨x, h', hxeq⟩)

theorem mem_aremove {l : List (κ × α)} {k : κ} {x : κ × α}
    (h : x ∈ aremove l k) : x ∈ l := by
  induction l with
  | nil => simpa [aremove] using h
  | cons e rest ih =>
    obtain ⟨k', v'⟩ := e
    simp only [aremove] at h
    split at h
    · exact List.mem_cons_of_mem _ h
    · rcases List.mem_cons.mp h with h' | h'
      · exact h' ▸ List.mem_cons_self _ _
      · exact List.mem_cons_of_mem _ (ih h')

theorem mem_aremove_nodup {l : List (κ × α)} {k : κ} {x : κ × α}
    (hnd : (l.map Prod.fst).Nodup) (h : x ∈ aremove l k) :
    x ∈ l ∧ x.1 ≠ k := by
  induction l with
  | nil => simp [aremove] at h
  | cons e rest ih =>
    obtain ⟨k', v'⟩ := e
    simp only [List.map_cons, List.nodup_cons] at hnd
    simp only [aremove] at h
    split at h
    · rename_i heq
      subst heq
      refine ⟨List.mem_cons_of_mem _ h, ?_⟩
      intro hx
      exact hnd.1 (hx ▸ List.mem_map.mpr ⟨x, h, rfl⟩)
    · rename_i hne
      rcases List.mem_cons.mp h with h' | h'
      · exact ⟨h' ▸ List.mem_cons_self _ _, by rw [h']; exact hne⟩
      · obtain ⟨h1, h2⟩ := ih hnd.2 h'
        exact ⟨List.mem_cons_of_mem _ h1, h2⟩

theorem aremove_keys_nodup {l : List (κ × α)} {k : κ}
    (h : (l.map Prod.fst).Nodup) : ((aremove l k).map Prod.fst).Nodup := by
  induction l with
  | nil => simpa [aremove] using h
  | cons e rest ih =>
    obtain ⟨k', v'⟩ := e
    simp only [List.map_cons, List.nodup_cons] at h
    simp only [aremove]
    split
    · exact h.2
    · simp only [List.map_cons, List.nodup_cons]
      refine ⟨?_, ih h.2⟩
      intro hmem
      simp only [List.mem_map] at hmem
      obtain ⟨x, hx, hxeq⟩ := hmem
      exact h.1 (List.mem_map.mpr ⟨x, mem_aremove hx, hxeq⟩)

theorem aremove_lookup_self_nodup {l : List (κ × α)} {k : κ}
    (hnd : (l.map Prod.fst).Nodup) : alookup (aremove l k) k = none := by
  cases h : alookup (aremove l k) k with
  | none => rfl
  | some v =>
    have := mem_aremove_nodup hnd (alookup_mem h)
    exact absurd rfl this.2

theorem evictLoop_sublist {T : Type} (maxSize : Nat) (enable : Bool) :
    ∀ (data : List (κ × GCacheEntry T)) (stats : GCacheStats),
      (evictLoop maxSize enable data stats).1.Sublist data := by
  intro data
  induction data with
  | nil => intro stats; simp [evictLoop]
  | cons e rest ih =>
    intro stats
    simp only [evictLoop]
    split
    · exact List.Sublist.cons e (ih _)
    · exact List.Sublist.refl _

theorem alookup_sublist {l l' : List (κ × α)} (hsub : l'.Sublist l)
    (hnd : (l.map Prod.fst).Nodup) (k : κ) :
    alookup l' k = alookup l k ∨ alookup l' k = none := by
  cases h : alookup l' k with
  | none => exact Or.inr rfl
  | some v =>
    left
    exact (alookup_of_mem_nodup hnd (hsub.subset (alookup_mem h))).symm

end AssocLemmas

/-! ## Execution engine (crates/core/src/execution_engine.rs)

`Order` and `Fill` carry `f64` quantities, prices and commissions, modelled as
`ℚ`.  The engine's `AtomicTime` clock is set at engine creation and never
advanced by these operations; its reading is the state field `clockNanos`.
The order cache is the `GenericCache` model instantiated with the engine's
configuration (`max_size = 10000`, `ttl = 3600 s`, statistics on); the source
keys it by `order_id.to_string()`, an injective encoding of the id, so the
model keys by the id itself (`κ = Nat`); `nowSecs` is the wall-clock reading
the cache makes internally.  Venue adapters are trait objects: the model
tracks the set of registered adapter names, and the outcome of an adapter
`cancel_order` call is supplied by the environment as part of the cancel
event (`submit_order` spawns its adapter call asynchronously and ignores the
result).  `HashMap`s are modelled as association lists. -/

/-- Core `OrderSide`. -/
inductive COrderSide where
  | buy
  | sell
  deriving DecidableEq, Repr

/-- `OrderType`. -/
inductive COrderType where
  | market
  | limit
  | stop
  | stopLimit
  deriving DecidableEq, Repr

/-- `OrderStatus`. -/
inductive OrderStatus where
  | initialized
  | submitted
  | accepted
  | partiallyFilled
  | filled
  | cancelled
  | rejected
  | expired
  deriving DecidableEq, Repr

/-- `TimeInForce`. -/
inductive TimeInForce where
  | gtc
  | ioc
  | fok
  | gtd
  | day
  deriving DecidableEq, Repr

/-- `Order` (identifiers are the core numeric ids). -/
structure Order where
  orderId : Nat
  strategyId : Nat
  instrumentId : Nat
  side : COrderSide
  orderType : COrderType
  quantity : ℚ
  price : Option ℚ
  stopPrice : Option ℚ
  timeInForce : TimeInForce
  status : OrderStatus
  venueOrderId : Option String
  filledQuantity : ℚ
  avgFillPrice : Option ℚ
  createdTime : Nat
  updatedTime : Nat
  commission : ℚ
  tags : List (String × String)
  deriving DecidableEq, Repr

/-- `Order::is_active`. -/
def Order.isActive (o : Order) : Bool :=
  match o.status with
  | .submitted | .accepted | .partiallyFilled => true
  | _ => false

/-- `Order::is_complete`. -/
def Order.isComplete (o : Order) : Bool :=
  match o.status with
  | .filled | .cancelled | .rejected | .expired => true
  | _ => false

/-- `Order::is_filled`. -/
def Order.isFilledFull (o : Order) : Bool := o.filledQuantity ≥ o.quantity

/-- `Order::remaining_quantity`. -/
def Order.remainingQuantity (o : Order) : ℚ := o.quantity - o.filledQuantity

/-- `Fill`. -/
structure Fill where
  orderId : Nat
  fillId : String
  price : ℚ
  quantity : ℚ
  timestamp : Nat
  commission : ℚ
  commissionCurrency : String
  deriving DecidableEq, Repr

/-- The `OrderEvent` variants the engine publishes. -/
inductive OrderEventM where
  | orderSubmitted (order : Order) (timestamp : Nat)
  | orderCancelled (orderId : Nat) (timestamp : Nat)
  | orderFilled (orderId : Nat) (fill : Fill) (timestamp : Nat)
  deriving DecidableEq, Repr

/-- `ExecutionStats`. -/
structure ExecStats where
  ordersSubmitted : Nat
  ordersFilled : Nat
  ordersCancelled : Nat
  ordersRejected : Nat
  totalFillVolume : ℚ
  totalCommission : ℚ
  avgExecutionLatencyNs : Nat
  deriving DecidableEq, Repr

/-- `ExecutionError` (the variants these operations produce). -/
inductive ExecError where
  | orderNotFound (id : Nat)
  | orderNotActive (id : Nat)
  | exchangeNotFound (name : String)
  | noRoutingConfigured (instrument : Nat)
  | exchangeError (msg : String)
  deriving DecidableEq, Repr

/-- `ExecutionEngine` state (the message bus is modelled by the `published`
log of `(topic, event)` pairs). -/
structure ExecutionEngineM where
  orderCache : GCache Nat Order
  activeOrders : List (Nat × Order)
  strategyOrders : List (Nat × List Nat)
  exchangeAdapters : List String
  routingConfig : List (Nat × String)
  stats : ExecStats
  published : List (String × OrderEventM)
  clockNanos : Nat
  nowSecs : Nat
  deriving DecidableEq

/-- `ExecutionEngine::new` (order-cache config from the source). -/
def ExecutionEngineM.mkNew (clockNanos nowSecs : Nat) : ExecutionEngineM :=
  ⟨GCache.new ⟨10000, some 3600, true⟩, [], [], [], [],
    ⟨0, 0, 0, 0, 0, 0, 0⟩, [], clockNanos, nowSecs⟩

/-- The order as `submit_order` stamps it before any lookup:
`status = Submitted`, `updated_time = clock`. -/
def submittedForm (s : ExecutionEngineM) (order : Order) : Order :=
  { order with status := .submitted, updatedTime := s.clockNanos }

/-- `strategy_orders.entry(id).or_insert_with(Vec::new).push(order_id)`. -/
def pushStrategyOrder (so : List (Nat × List Nat)) (sid oid : Nat) :
    List (Nat × List Nat) :=
  match alookup so sid with
  | some l => ainsert so sid (l ++ [oid])
  | none => ainsert so sid [oid]

/-- The state after `submit_order`'s unconditional writes (the steps before
the routing lookup): cache write, active-order insert, strategy-list
append. -/
def submitPrepared (s : ExecutionEngineM) (o : Order) : ExecutionEngineM :=
  { s with
    orderCache := s.orderCache.put o.orderId o s.nowSecs
    activeOrders := ainsert s.activeOrders o.orderId o
    strategyOrders := pushStrategyOrder s.strategyOrders o.strategyId o.orderId }

/-- `ExecutionEngine::submit_order`. -/
def submitOrder (s : ExecutionEngineM) (order : Order) :
    Except ExecError Nat × ExecutionEngineM :=
  match alookup s.routingConfig order.instrumentId with
  | none =>
    (.error (.noRoutingConfigured order.instrumentId),
      submitPrepared s (submittedForm s order))
  | some exchangeName =>
    if exchangeName ∈ s.exchangeAdapters then
      (.ok order.orderId,
        { submitPrepared s (submittedForm s order) with
          stats := { s.stats with
            ordersSubmitted := s.stats.ordersSubmitted + 1 }
          published := s.published ++ [("orders.submitted",
            .orderSubmitted (submittedForm s order) s.clockNanos)] })
    else
      (.error (.exchangeNotFound exchangeName),
        submitPrepared s (submittedForm s order))

/-- The cancelled order as `cancel_order` writes it. -/
def cancelledForm (s : ExecutionEngineM) (order : Order) : Order :=
  { order with status := .cancelled, updatedTime := s.clockNanos }

/-- The state mutations of a successful cancel. -/
def cancelApplied (s : ExecutionEngineM) (orderId : Nat) (order : Order) :
    ExecutionEngineM :=
  { s with
    orderCache := s.orderCache.put orderId (cancelledForm s order) s.nowSecs
    activeOrders := aremove s.activeOrders orderId
    stats := { s.stats with ordersCancelled := s.stats.ordersCancelled + 1 }
    published := s.published ++ [("orders.cancelled",
      .orderCancelled orderId s.clockNanos)] }

/-- `ExecutionEngine::cancel_order`.  `adapterResp` is the venue adapter's
response to this call, supplied by the environment. -/
def cancelOrder (s : ExecutionEngineM) (orderId : Nat)
    (adapterResp : Except String Unit) :
    Except ExecError Unit × ExecutionEngineM :=
  match alookup s.activeOrders orderId with
  | none => (.error (.orderNotFound orderId), s)
  | some order =>
    if order.isActive then
      match alookup s.routingConfig order.instrumentId with
      | none => (.error (.noRoutingConfigured order.instrumentId), s)
      | some exchangeName =>
        if exchangeName ∈ s.exchangeAdapters then
          match adapterResp with
          | .error e => (.error (.exchangeError e), s)
          | .ok _ => (.ok (), cancelApplied s orderId order)
        else (.error (.exchangeNotFound exchangeName), s)
    else (.error (.orderNotActive orderId), s)

/-- The order as `handle_fill` rewrites it: accumulate quantity and
commission, stamp the time, recompute the volume-weighted average fill price
(first fill takes the fill's price), then transition the status on the
*updated* filled quantity. -/
def filledForm (s : ExecutionEngineM) (order : Order) (fill : Fill) : Order :=
  { order with
    filledQuantity := order.filledQuantity + fill.quantity
    commission := order.commission + fill.commission
    updatedTime := s.clockNanos
    avgFillPrice := some (match order.avgFillPrice with
      | some avgPrice =>
        (avgPrice * order.filledQuantity + fill.price * fill.quantity) /
          (order.filledQuantity + fill.quantity)
      | none => fill.price)
    status := if order.filledQuantity + fill.quantity ≥ order.quantity
      then .filled else .partiallyFilled }

/-- The state mutations of a successful fill. -/
def fillApplied (s : ExecutionEngineM) (order : Order) (fill : Fill) :
    ExecutionEngineM :=
  { s with
    orderCache := s.orderCache.put fill.orderId (filledForm s order fill) s.nowSecs
    activeOrders := if (filledForm s order fill).isComplete
      then aremove s.activeOrders fill.orderId
      else ainsert s.activeOrders fill.orderId (filledForm s order fill)
    stats := { s.stats with
      ordersFilled := if (filledForm s order fill).status = .filled
        then s.stats.ordersFilled + 1 else s.stats.ordersFilled
      totalFillVolume := s.stats.totalFillVolume + fill.quantity
      totalCommission := s.stats.totalCommission + fill.commission }
    published := s.published ++ [("orders.filled",
      .orderFilled fill.orderId fill s.clockNanos)] }

/-- `ExecutionEngine::handle_fill`. -/
def handleFill (s : ExecutionEngineM) (fill : Fill) :
    Except ExecError Unit × ExecutionEngineM :=
  match alookup s.activeOrders fill.orderId with
  | none => (.error (.orderNotFound fill.orderId), s)
  | some order => (.ok (), fillApplied s order fill)

/-- `ExecutionEngine::configure_routing`. -/
def execConfigureRouting (s : ExecutionEngineM) (instrument : Nat)
    (exchangeName : String) : ExecutionEngineM :=
  { s with routingConfig := ainsert s.routingConfig instrument exchangeName }

/-- `ExecutionEngine::register_exchange_adapter` (the model tracks the set of
registered adapter names). -/
def execRegisterAdapter (s : ExecutionEngineM) (name : String) :
    ExecutionEngineM :=
  if name ∈ s.exchangeAdapters then s
  else { s with exchangeAdapters := s.exchangeAdapters ++ [name] }

/-- One engine call (with the environment inputs it consumes). -/
inductive ExecEvent where
  | submit (order : Order)
  | cancel (orderId : Nat) (adapterResp : Except String Unit)
  | fill (f : Fill)
  | configureRouting (instrument : Nat) (exchangeName : String)
  | registerAdapter (name : String)
  deriving DecidableEq

/-- Apply one call, discarding the returned value. -/
def execStep (s : ExecutionEngineM) : ExecEvent → ExecutionEngineM
  | .submit order => (submitOrder s order).2
  | .cancel orderId resp => (cancelOrder s orderId resp).2
  | .fill f => (handleFill s f).2
  | .configureRouting instrument name => execConfigureRouting s instrument name
  | .registerAdapter name => execRegisterAdapter s name

def runExec (s : ExecutionEngineM) (events : List ExecEvent) :
    ExecutionEngineM :=
  events.foldl execStep s

/-- Caller-contract side conditions of one call: a submitted order is a fresh
`Initialized` order (spec §4.8 step 1: fresh id from the process-wide
counter, no fills yet, non-negative quantity), and a fill is strictly
positive and at most the target order's remaining quantity.  Cancels, routing
configuration, and adapter registration are unconstrained. -/
def goodEvent (s : ExecutionEngineM) : ExecEvent → Bool
  | .submit o =>
    o.status = OrderStatus.initialized && decide (o.filledQuantity = 0) &&
      o.avgFillPrice = none && decide ((0 : ℚ) ≤ o.quantity) &&
      (alookup s.activeOrders o.orderId).isNone &&
      (alookup s.orderCache.data o.orderId).isNone
  | .fill f =>
    match alookup s.activeOrders f.orderId with
    | some o =>
      decide ((0 : ℚ) < f.quantity) &&
        decide (f.quantity ≤ o.quantity - o.filledQuantity)
    | none => true
  | _ => true

def goodSeq (s : ExecutionEngineM) : List ExecEvent → Bool
  | [] => true
  | e :: es => goodEvent s e && goodSeq (execStep s e) es

/-- The per-order data invariant of C2. -/
def OrderInv (o : Order) : Prop :=
  0 ≤ o.filledQuantity ∧ o.filledQuantity ≤ o.quantity ∧
    (o.avgFillPrice.isSome ↔ 0 < o.filledQuantity)

/-- The orders stored in the engine's order cache. -/
def cacheOrders (s : ExecutionEngineM) : List Order :=
  s.orderCache.data.map fun e => e.2.value

/-- The full induction invariant: per-order bounds for cached and active
orders, active orders are `Submitted`/`PartiallyFilled`, key sets are
duplicate-free (`HashMap` keys), and no active order's cache slot holds a
completed order. -/
def ExecInv (s : ExecutionEngineM) : Prop :=
  (∀ o ∈ cacheOrders s, OrderInv o) ∧
  (∀ p ∈ s.activeOrders, OrderInv p.2 ∧
    (p.2.status = .submitted ∨ p.2.status = .partiallyFilled)) ∧
  (s.activeOrders.map Prod.fst).Nodup ∧
  (s.orderCache.data.map Prod.fst).Nodup ∧
  (∀ p ∈ s.activeOrders, ∀ e, alookup s.orderCache.data p.1 = some e →
    e.value.isComplete = false)

/-! ### Facts about `GenericCache::put` as the engine uses it -/

theorem gput_data_eq {κ T : Type} [DecidableEq κ] (c : GCache κ T) (k : κ)
    (v : T) (now : Nat) :
    (c.put k v now).data =
      ainsert (evictLoop c.config.maxSize c.config.enableStatistics
        c.data c.stats).1 k (GCacheEntry.mk' v c.config.ttlSeconds now) := rfl

theorem gput_lookup_self {κ T : Type} [DecidableEq κ] (c : GCache κ T) (k : κ)
    (v : T) (now : Nat) :
    alookup (c.put k v now).data k =
      some (GCacheEntry.mk' v c.config.ttlSeconds now) := by
  rw [gput_data_eq]
  exact ainsert_lookup_self _ _ _

theorem gput_lookup_cases {κ T : Type} [DecidableEq κ] {c : GCache κ T}
    {k k' : κ} {v : T} {now : Nat} {e : GCacheEntry T}
    (hnd : (c.data.map Prod.fst).Nodup)
    (h : alookup (c.put k' v now).data k = some e) :
    (k = k' ∧ e = GCacheEntry.mk' v c.config.ttlSeconds now) ∨
      alookup c.data k = some e := by
  rw [gput_data_eq] at h
  by_cases hk : k = k'
  · subst hk
    rw [ainsert_lookup_self] at h
    exact Or.inl ⟨rfl, (Option.some.injEq .. ▸ h).symm⟩
  · rw [ainsert_lookup_other _ _ _ _ hk] at h
    rcases alookup_sublist
        (evictLoop_sublist c.config.maxSize c.config.enableStatistics
          c.data c.stats) hnd k with heq | hnone
    · exact Or.inr (heq ▸ h)
    · rw [hnone] at h
      cases h

theorem gput_lookup_other {κ T : Type} [DecidableEq κ] (c : GCache κ T)
    {k k' : κ} (v : T) (now : Nat) (hnd : (c.data.map Prod.fst).Nodup)
    (h : k ≠ k') :
    alookup (c.put k' v now).data k = alookup c.data k ∨
      alookup (c.put k' v now).data k = none := by
  rw [gput_data_eq, ainsert_lookup_other _ _ _ _ h]
  exact alookup_sublist
    (evictLoop_sublist c.config.maxSize c.config.enableStatistics
      c.data c.stats) hnd k

theorem gput_mem {κ T : Type} [DecidableEq κ] {c : GCache κ T} {k : κ} {v : T}
    {now : Nat} {x : κ × GCacheEntry T} (hx : x ∈ (c.put k v now).data) :
    x = (k, GCacheEntry.mk' v c.config.ttlSeconds now) ∨ x ∈ c.data := by
  rw [gput_data_eq] at hx
  rcases mem_ainsert hx with h | h
  · exact Or.inl h
  · exact Or.inr ((evictLoop_sublist c.config.maxSize c.config.enableStatistics
      c.data c.stats).subset h)

theorem gput_keys_nodup {κ T : Type} [DecidableEq κ] {c : GCache κ T} (k : κ)
    (v : T) (now : Nat) (hnd : (c.data.map Prod.fst).Nodup) :
    (((c.put k v now).data).map Prod.fst).Nodup := by
  rw [gput_data_eq]
  refine ainsert_keys_nodup (hnd.sublist ?_)
  exact (evictLoop_sublist c.config.maxSize c.config.enableStatistics
    c.data c.stats).map Prod.fst

/-! ### Preservation of `ExecInv` -/

theorem execInv_mkNew (clockNanos nowSecs : Nat) :
    ExecInv (ExecutionEngineM.mkNew clockNanos nowSecs) := by
  refine ⟨?_, ?_, ?_, ?_, ?_⟩ <;>
    simp [ExecutionEngineM.mkNew, cacheOrders, GCache.new]

theorem execInv_submitPrepared (s : ExecutionEngineM) (o : Order)
    (hinv : ExecInv s) (hord : OrderInv o) (hstat : o.status = .submitted)
    (hcomp : o.isComplete = false)
    (hfa : alookup s.activeOrders o.orderId = none)
    (hfc : alookup s.orderCache.data o.orderId = none) :
    ExecInv (submitPrepared s o) := by
  obtain ⟨hc, ha, hand, hcnd, h2⟩ := hinv
  refine ⟨?_, ?_, ?_, gput_keys_nodup _ _ _ hcnd, ?_⟩
  · intro ord hord'
    simp only [cacheOrders, List.mem_map] at hord'
    obtain ⟨x, hx, hxeq⟩ := hord'
    rcases gput_mem hx with h | h
    · rw [h] at hxeq
      rw [← hxeq]
      exact hord
    · exact hc _ (List.mem_map.mpr ⟨x, h, hxeq⟩)
  · intro p hp
    rcases mem_ainsert hp with h | h
    · rw [h]
      exact ⟨hord, Or.inl hstat⟩
    · exact ha p h
  · show ((ainsert s.activeOrders o.orderId o).map Prod.fst).Nodup
    rw [ainsert_of_lookup_none o hfa, List.map_append]
    simp only [List.map_cons, List.map_nil]
    rw [List.nodup_append]
    refine ⟨hand, List.nodup_singleton _, ?_⟩
    intro k hk hk'
    simp only [List.mem_singleton] at hk'
    subst hk'
    exact alookup_none_keys hfa hk
  · intro p hp e he
    rcases mem_ainsert hp with hpeq | hpold
    · rw [hpeq] at he
      have he' : alookup (s.orderCache.put o.orderId o s.nowSecs).data
          o.orderId = some e := he
      rw [gput_lookup_self] at he'
      have hev : e = GCacheEntry.mk' o s.orderCache.config.ttlSeconds s.nowSecs :=
        (Option.some.injEq .. ▸ he').symm
      rw [hev]
      exact hcomp
    · rcases gput_lookup_cases hcnd he with ⟨hk, hev⟩ | hold
      · rw [hev]
        exact hcomp
      · exact h2 p hpold e hold

theorem execInv_cancelApplied (s : ExecutionEngineM) (orderId : Nat)
    (order : Order) (hinv : ExecInv s)
    (hlook : alookup s.activeOrders orderId = some order) :
    ExecInv (cancelApplied s orderId order) := by
  obtain ⟨hc, ha, hand, hcnd, h2⟩ := hinv
  have hmem := alookup_mem hlook
  have hordinv : OrderInv order := (ha _ hmem).1
  have hcinv : OrderInv (cancelledForm s order) := hordinv
  refine ⟨?_, ?_, aremove_keys_nodup hand, gput_keys_nodup _ _ _ hcnd, ?_⟩
  · intro ord hord'
    simp only [cacheOrders, List.mem_map] at hord'
    obtain ⟨x, hx, hxeq⟩ := hord'
    rcases gput_mem hx with h | h
    · rw [h] at hxeq
      rw [← hxeq]
      exact hcinv
    · exact hc _ (List.mem_map.mpr ⟨x, h, hxeq⟩)
  · intro p hp
    exact ha p (mem_aremove hp)
  · intro p hp e he
    obtain ⟨hpmem, hpne⟩ := mem_aremove_nodup hand hp
    rcases gput_lookup_cases hcnd he with ⟨hk, hev⟩ | hold
    · exact absurd hk hpne
    · exact h2 p hpmem e hold

theorem execInv_fillApplied (s : ExecutionEngineM) (order : Order) (fill : Fill)
    (hinv : ExecInv s)
    (hlook : alookup s.activeOrders fill.orderId = some order)
    (hq : (0 : ℚ) < fill.quantity)
    (hle : fill.quantity ≤ order.quantity - order.filledQuantity) :
    ExecInv (fillApplied s order fill) := by
  obtain ⟨hc, ha, hand, hcnd, h2⟩ := hinv
  have hmem := alookup_mem hlook
  obtain ⟨⟨hf0, hfq, hfa⟩, hstat⟩ := ha _ hmem
  have hinv' : OrderInv (filledForm s order fill) := by
    refine ⟨?_, ?_, ?_⟩
    · show (0 : ℚ) ≤ order.filledQuantity + fill.quantity
      linarith
    · show order.filledQuantity + fill.quantity ≤ order.quantity
      linarith
    · constructor
      · intro _
        show (0 : ℚ) < order.filledQuantity + fill.quantity
        linarith
      · intro _
        simp [filledForm]
  by_cases hfull : order.filledQuantity + fill.quantity ≥ order.quantity
  · have hst : (filledForm s order fill).status = .filled := by
      simp [filledForm, if_pos hfull]
    have hcmp : (filledForm s order fill).isComplete = true := by
      simp [Order.isComplete, hst]
    refine ⟨?_, ?_, ?_, gput_keys_nodup _ _ _ hcnd, ?_⟩
    · intro ord hord'
      simp only [cacheOrders, List.mem_map] at hord'
      obtain ⟨x, hx, hxeq⟩ := hord'
      rcases gput_mem hx with h | h
      · rw [h] at hxeq
        rw [← hxeq]
        exact hinv'
      · exact hc _ (List.mem_map.mpr ⟨x, h, hxeq⟩)
    · intro p hp
      simp only [fillApplied, hcmp, if_pos rfl] at hp
      exact ha p (mem_aremove hp)
    · show ((if (filledForm s order fill).isComplete
          then aremove s.activeOrders fill.orderId
          else ainsert s.activeOrders fill.orderId (filledForm s order fill)).map
            Prod.fst).Nodup
      rw [hcmp, if_pos rfl]
      exact aremove_keys_nodup hand
    · intro p hp e he
      simp only [fillApplied, hcmp, if_pos rfl] at hp
      obtain ⟨hpmem, hpne⟩ := mem_aremove_nodup hand hp
      rcases gput_lookup_cases hcnd he with ⟨hk, hev⟩ | hold
      · exact absurd hk hpne
      · exact h2 p hpmem e hold
  · have hst : (filledForm s order fill).status = .partiallyFilled := by
      simp [filledForm, if_neg hfull]
    have hcmp : (filledForm s order fill).isComplete = false := by
      simp [Order.isComplete, hst]
    refine ⟨?_, ?_, ?_, gput_keys_nodup _ _ _ hcnd, ?_⟩
    · intro ord hord'
      simp only [cacheOrders, List.mem_map] at hord'
      obtain ⟨x, hx, hxeq⟩ := hord'
      rcases gput_mem hx with h | h
      · rw [h] at hxeq
        rw [← hxeq]
        exact hinv'
      · exact hc _ (List.mem_map.mpr ⟨x, h, hxeq⟩)
    · intro p hp
      simp only [fillApplied, hcmp, Bool.false_eq_true, if_false] at hp
      rcases mem_ainsert hp with h | h
      · rw [h]
        exact ⟨hinv', Or.inr hst⟩
      · exact ha p h
    · show ((if (filledForm s order fill).isComplete
          then aremove s.activeOrders fill.orderId
          else ainsert s.activeOrders fill.orderId (filledForm s order fill)).map
            Prod.fst).Nodup
      rw [hcmp]
      simp only [Bool.false_eq_true, if_false]
      exact ainsert_keys_nodup hand
    · intro p hp e he
      simp only [fillApplied, hcmp, Bool.false_eq_true, if_false] at hp
      rcases mem_ainsert_nodup hand hp with hpeq | ⟨hpmem, hpne⟩
      · rw [hpeq] at he
        have he' : alookup (s.orderCache.put fill.orderId
            (filledForm s order fill) s.nowSecs).data fill.orderId = some e := he
        rw [gput_lookup_self] at he'
        have hev : e = GCacheEntry.mk' (filledForm s order fill)
            s.orderCache.config.ttlSeconds s.nowSecs :=
          (Option.some.injEq .. ▸ he').symm
        rw [hev]
        exact hcmp
      · rcases gput_lookup_cases hcnd he with ⟨hk, hev⟩ | hold
        · exact absurd hk hpne
        · exact h2 p hpmem e hold

theorem execInv_step (s : ExecutionEngineM) (e : ExecEvent)
    (hinv : ExecInv s) (hg : goodEvent s e = true) : ExecInv (execStep s e) := by
  cases e with
  | submit o =>
    simp only [goodEvent, Bool.and_eq_true, decide_eq_true_eq,
      Option.isNone_iff_eq_none] at hg
    obtain ⟨⟨⟨⟨⟨hst, hf0⟩, hav⟩, hqty⟩, hfa⟩, hfc⟩ := hg
    have hord : OrderInv (submittedForm s o) := by
      refine ⟨?_, ?_, ?_⟩
      · show (0 : ℚ) ≤ o.filledQuantity
        rw [hf0]
      · show o.filledQuantity ≤ o.quantity
        rw [hf0]; exact hqty
      · show o.avgFillPrice.isSome = true ↔ 0 < o.filledQuantity
        rw [hav, hf0]
        simp
    have hprep := execInv_submitPrepared s (submittedForm s o) hinv hord rfl rfl
      hfa hfc
    show ExecInv (submitOrder s o).2
    cases hroute : alookup s.routingConfig o.instrumentId with
    | none =>
      simp only [submitOrder, hroute]
      exact hprep
    | some ex =>
      by_cases had : ex ∈ s.exchangeAdapters
      · simp only [submitOrder, hroute, had, if_true]
        exact hprep
      · simp only [submitOrder, hroute, had, if_false]
        exact hprep
  | cancel orderId resp =>
    show ExecInv (cancelOrder s orderId resp).2
    cases hlook : alookup s.activeOrders orderId with
    | none =>
      simp only [cancelOrder, hlook]
      exact hinv
    | some order =>
      by_cases hact : order.isActive = true
      · cases hroute : alookup s.routingConfig order.instrumentId with
        | none =>
          simp only [cancelOrder, hlook, hact, hroute, if_true]
          exact hinv
        | some ex =>
          by_cases had : ex ∈ s.exchangeAdapters
          · cases resp with
            | error msg =>
              simp only [cancelOrder, hlook, hact, hroute, had, if_true]
              exact hinv
            | ok u =>
              simp only [cancelOrder, hlook, hact, hroute, had, if_true]
              exact execInv_cancelApplied s orderId order hinv hlook
          · simp only [cancelOrder, hlook, hact, hroute, had, if_true, if_false]
            exact hinv
      · simp only [cancelOrder, hlook, hact, if_false]
        exact hinv
  | fill f =>
    show ExecInv (handleFill s f).2
    cases hlook : alookup s.activeOrders f.orderId with
    | none =>
      simp only [handleFill, hlook]
      exact hinv
    | some order =>
      simp only [goodEvent, hlook, Bool.and_eq_true, decide_eq_true_eq] at hg
      simp only [handleFill, hlook]
      exact execInv_fillApplied s order f hinv hlook hg.1 hg.2
  | configureRouting instrument name =>
    obtain ⟨hc, ha, hand, hcnd, h2⟩ := hinv
    exact ⟨hc, ha, hand, hcnd, h2⟩
  | registerAdapter name =>
    obtain ⟨hc, ha, hand, hcnd, h2⟩ := hinv
    show ExecInv (execRegisterAdapter s name)
    unfold execRegisterAdapter
    split
    · exact ⟨hc, ha, hand, hcnd, h2⟩
    · exact ⟨hc, ha, hand, hcnd, h2⟩

theorem execInv_run :
    ∀ (events : List ExecEvent) (s : ExecutionEngineM),
      ExecInv s → goodSeq s events = true → ExecInv (runExec s events) := by
  intro events
  induction events with
  | nil => intro s h _; exact h
  | cons e rest ih =>
    intro s h hg
    simp only [goodSeq, Bool.and_eq_true] at hg
    exact ih (execStep s e) (execInv_step s e h hg.1) hg.2

/-- A completed order's cache entry is untouched (or evicted) by any
contract-respecting engine call. -/
theorem terminal_entry_step (s : ExecutionEngineM) (e : ExecEvent)
    (hinv : ExecInv s) (hg : goodEvent s e = true) (k : Nat)
    (entry : GCacheEntry Order)
    (hk : alookup s.orderCache.data k = some entry)
    (hterm : entry.value.isComplete = true) :
    alookup (execStep s e).orderCache.data k = some entry ∨
      alookup (execStep s e).orderCache.data k = none := by
  obtain ⟨hc, ha, hand, hcnd, h2⟩ := hinv
  cases e with
  | submit o =>
    simp only [goodEvent, Bool.and_eq_true, decide_eq_true_eq,
      Option.isNone_iff_eq_none] at hg
    have hfc : alookup s.orderCache.data o.orderId = none := hg.2
    have hne : k ≠ o.orderId := by
      intro heq
      rw [heq, hfc] at hk
      cases hk
    have hput := gput_lookup_other s.orderCache (submittedForm s o) s.nowSecs
      hcnd hne
    show alookup (submitOrder s o).2.orderCache.data k = some entry ∨
      alookup (submitOrder s o).2.orderCache.data k = none
    cases hroute : alookup s.routingConfig o.instrumentId with
    | none =>
      simp only [submitOrder, hroute]
      rcases hput with h | h
      · exact Or.inl (h ▸ hk)
      · exact Or.inr h
    | some ex =>
      by_cases had : ex ∈ s.exchangeAdapters
      · simp only [submitOrder, hroute, had, if_true]
        rcases hput with h | h
        · exact Or.inl (h ▸ hk)
        · exact Or.inr h
      · simp only [submitOrder, hroute, had, if_false]
        rcases hput with h | h
        · exact Or.inl (h ▸ hk)
        · exact Or.inr h
  | cancel orderId resp =>
    show alookup (cancelOrder s orderId resp).2.orderCache.data k = some entry ∨
      alookup (cancelOrder s orderId resp).2.orderCache.data k = none
    cases hlook : alookup s.activeOrders orderId with
    | none =>
      simp only [cancelOrder, hlook]
      exact Or.inl hk
    | some order =>
      by_cases hact : order.isActive = true
      · cases hroute : alookup s.routingConfig order.instrumentId with
        | none =>
          simp only [cancelOrder, hlook, hact, hroute, if_true]
          exact Or.inl hk
        | some ex =>
          by_cases had : ex ∈ s.exchangeAdapters
          · cases resp with
            | error msg =>
              simp only [cancelOrder, hlook, hact, hroute, had, if_true]
              exact Or.inl hk
            | ok u =>
              simp only [cancelOrder, hlook, hact, hroute, had, if_true]
              have hne : k ≠ orderId := by
                intro heq
                rw [heq] at hk
                have := h2 (orderId, order) (alookup_mem hlook) entry hk
                rw [hterm] at this
                cases this
              rcases gput_lookup_other s.orderCache (cancelledForm s order)
                s.nowSecs hcnd hne with h | h
              · exact Or.inl (h ▸ hk)
              · exact Or.inr h
          · simp only [cancelOrder, hlook, hact, hroute, had, if_true, if_false]
            exact Or.inl hk
      · simp only [cancelOrder, hlook, hact, if_false]
        exact Or.inl hk
  | fill f =>
    show alookup (handleFill s f).2.orderCache.data k = some entry ∨
      alookup (handleFill s f).2.orderCache.data k = none
    cases hlook : alookup s.activeOrders f.orderId with
    | none =>
      simp only [handleFill, hlook]
      exact Or.inl hk
    | some order =>
      simp only [handleFill, hlook]
      have hne : k ≠ f.orderId := by
        intro heq
        rw [heq] at hk
        have := h2 (f.orderId, order) (alookup_mem hlook) entry hk
        rw [hterm] at this
        cases this
      rcases gput_lookup_other s.orderCache (filledForm s order f) s.nowSecs
        hcnd hne with h | h
      · exact Or.inl (h ▸ hk)
      · exact Or.inr h
  | configureRouting instrument name => exact Or.inl hk
  | registerAdapter name =>
    show alookup (execRegisterAdapter s name).orderCache.data k = some entry ∨
      alookup (execRegisterAdapter s name).orderCache.data k = none
    unfold execRegisterAdapter
    split
    · exact Or.inl hk
    · exact Or.inl hk

theorem runExec_append_one (s : ExecutionEngineM) (events : List ExecEvent)
    (e : ExecEvent) :
    runExec s (events ++ [e]) = execStep (runExec s events) e := by
  simp [runExec, List.foldl_append]

theorem goodSeq_append_one :
    ∀ (events : List ExecEvent) (s : ExecutionEngineM) (e : ExecEvent),
      goodSeq s (events ++ [e]) = true →
      goodSeq s events = true ∧ goodEvent (runExec s events) e = true := by
  intro events
  induction events with
  | nil =>
    intro s e h
    simp only [List.nil_append, goodSeq, Bool.and_eq_true] at h
    exact ⟨rfl, h.1⟩
  | cons e0 rest ih =>
    intro s e h
    simp only [List.cons_append, goodSeq, Bool.and_eq_true] at h
    obtain ⟨h0, hrest⟩ := h
    obtain ⟨h1, h2⟩ := ih (execStep s e0) e hrest
    exact ⟨by simp [goodSeq, h0, h1], h2⟩

/-- C2, the claim as spec'd: after *every* sequence of engine calls — with no
side condition on the fills — every cached or active order satisfies the
order invariant. -/
def C2Claim : Prop :=
  ∀ (clockNanos nowSecs : Nat) (events : List ExecEvent),
    (∀ o ∈ cacheOrders (runExec (ExecutionEngineM.mkNew clockNanos nowSecs)
      events), OrderInv o) ∧
    (∀ p ∈ (runExec (ExecutionEngineM.mkNew clockNanos nowSecs)
      events).activeOrders, OrderInv p.2)

/-- **C2 counterexample.**  `handle_fill` adds the fill quantity without
checking it against the remaining quantity: submitting a 100-quantity order
and handling a 150-quantity fill leaves a cached order with
`filled_quantity = 150 > 100 = quantity`, violating the claimed invariant. -/
theorem c2_counterexample_overfill :
    (cacheOrders (runExec (ExecutionEngineM.mkNew 0 0)
        [ExecEvent.submit ⟨1, 1, 1, .buy, .market, 100, none, none, .ioc,
          .initialized, none, 0, none, 0, 0, 0, []⟩,
         ExecEvent.fill ⟨1, "f1", 3/2, 150, 0, 0, "USD"⟩])).map
      (fun o => (o.filledQuantity, o.quantity)) = [(150, 100)] ∧
    ¬ C2Claim := by
  constructor
  · norm_num [cacheOrders, runExec, execStep, submitOrder, cancelOrder, handleFill,
    execConfigureRouting, execRegisterAdapter, alookup, aremove, ainsert,
    submittedForm, cancelledForm, filledForm, fillApplied, cancelApplied,
    submitPrepared, pushStrategyOrder, ExecutionEngineM.mkNew, GCache.new,
    GCache.put, evictLoop, GCacheEntry.mk', Order.isComplete, Order.isActive,
    Order.isFilledFull, goodSeq, goodEvent, List.foldl]
  · intro h
    have hmem : (⟨1, 1, 1, .buy, .market, 100, none, none, .ioc, .filled,
        none, 150, some (3/2), 0, 0, 0, []⟩ : Order) ∈
        cacheOrders (runExec (ExecutionEngineM.mkNew 0 0)
          [ExecEvent.submit ⟨1, 1, 1, .buy, .market, 100, none, none, .ioc,
            .initialized, none, 0, none, 0, 0, 0, []⟩,
           ExecEvent.fill ⟨1, "f1", 3/2, 150, 0, 0, "USD"⟩]) := by
      norm_num [cacheOrders, runExec, execStep, submitOrder, cancelOrder, handleFill,
    execConfigureRouting, execRegisterAdapter, alookup, aremove, ainsert,
    submittedForm, cancelledForm, filledForm, fillApplied, cancelApplied,
    submitPrepared, pushStrategyOrder, ExecutionEngineM.mkNew, GCache.new,
    GCache.put, evictLoop, GCacheEntry.mk', Order.isComplete, Order.isActive,
    Order.isFilledFull, goodSeq, goodEvent, List.foldl]
    have := (h 0 0 _).1 _ hmem
    exact absurd this.2.1 (by norm_num)

/-- **C2** (corrected).  Under the caller contract the spec itself states
(§4.8 step 1: `submit_order` is given a fresh `Initialized` order with
non-negative quantity; fills are strictly positive and bounded by the target
order's remaining quantity — `handle_fill` performs no such check itself),
every reachable state satisfies: each cached or active order has
`0 ≤ filled_quantity ≤ quantity` and `avg_fill_price` present iff
`filled_quantity > 0`; every active order is `Submitted` or
`PartiallyFilled` (so no terminal order is in the active set); and a cache
entry holding a terminal order is never modified by a further call — it is
either left intact or evicted whole by the bounded cache, never mutated. -/
theorem c2_exec_order_invariants :
    (∀ (clockNanos nowSecs : Nat) (events : List ExecEvent),
      goodSeq (ExecutionEngineM.mkNew clockNanos nowSecs) events = true →
      (∀ o ∈ cacheOrders (runExec (ExecutionEngineM.mkNew clockNanos nowSecs)
        events), OrderInv o) ∧
      (∀ p ∈ (runExec (ExecutionEngineM.mkNew clockNanos nowSecs)
        events).activeOrders, OrderInv p.2 ∧
        (p.2.status = .submitted ∨ p.2.status = .partiallyFilled))) ∧
    (∀ (clockNanos nowSecs : Nat) (events : List ExecEvent) (e : ExecEvent)
        (k : Nat) (entry : GCacheEntry Order),
      goodSeq (ExecutionEngineM.mkNew clockNanos nowSecs) (events ++ [e]) = true →
      alookup (runExec (ExecutionEngineM.mkNew clockNanos nowSecs)
        events).orderCache.data k = some entry →
      entry.value.isComplete = true →
      alookup (runExec (ExecutionEngineM.mkNew clockNanos nowSecs)
        (events ++ [e])).orderCache.data k = some entry ∨
      alookup (runExec (ExecutionEngineM.mkNew clockNanos nowSecs)
        (events ++ [e])).orderCache.data k = none) := by
  constructor
  · intro clockNanos nowSecs events hg
    have h := execInv_run events (ExecutionEngineM.mkNew clockNanos nowSecs)
      (execInv_mkNew clockNanos nowSecs) hg
    exact ⟨h.1, h.2.1⟩
  · intro clockNanos nowSecs events e k entry hg hk hterm
    obtain ⟨hg1, hg2⟩ := goodSeq_append_one events _ e hg
    rw [runExec_append_one]
    exact terminal_entry_step _ e
      (execInv_run events _ (execInv_mkNew clockNanos nowSecs) hg1) hg2
      k entry hk hterm

/-- Witness for C2: a concrete contract-respecting run (submit then a full
fill, then an unrelated call leaving the terminal cache entry intact). -/
theorem c2_exec_order_invariants_witness :
    (∀ o ∈ cacheOrders (runExec (ExecutionEngineM.mkNew 0 0)
        [ExecEvent.submit ⟨1, 1, 1, .buy, .market, 100, none, none, .ioc,
          .initialized, none, 0, none, 0, 0, 0, []⟩,
         ExecEvent.fill ⟨1, "f1", 3/2, 100, 0, 0, "USD"⟩]), OrderInv o) ∧
    (alookup (runExec (ExecutionEngineM.mkNew 0 0)
        ([ExecEvent.submit ⟨1, 1, 1, .buy, .market, 100, none, none, .ioc,
            .initialized, none, 0, none, 0, 0, 0, []⟩,
          ExecEvent.fill ⟨1, "f1", 3/2, 100, 0, 0, "USD"⟩] ++
          [ExecEvent.registerAdapter "X"])).orderCache.data 1 =
        some ⟨⟨1, 1, 1, .buy, .market, 100, none, none, .ioc, .filled, none,
          100, some (3/2), 0, 0, 0, []⟩, 0, some 3600, 0⟩ ∨
      alookup (runExec (ExecutionEngineM.mkNew 0 0)
        ([ExecEvent.submit ⟨1, 1, 1, .buy, .market, 100, none, none, .ioc,
            .initialized, none, 0, none, 0, 0, 0, []⟩,
          ExecEvent.fill ⟨1, "f1", 3/2, 100, 0, 0, "USD"⟩] ++
          [ExecEvent.registerAdapter "X"])).orderCache.data 1 = none) :=
  ⟨(c2_exec_order_invariants.1 0 0 _ (by norm_num [cacheOrders, runExec, execStep, submitOrder, cancelOrder, handleFill,
    execConfigureRouting, execRegisterAdapter, alookup, aremove, ainsert,
    submittedForm, cancelledForm, filledForm, fillApplied, cancelApplied,
    submitPrepared, pushStrategyOrder, ExecutionEngineM.mkNew, GCache.new,
    GCache.put, evictLoop, GCacheEntry.mk', Order.isComplete, Order.isActive,
    Order.isFilledFull, goodSeq, goodEvent, List.foldl])).1,
   c2_exec_order_invariants.2 0 0 _ (ExecEvent.registerAdapter "X") 1
     ⟨⟨1, 1, 1, .buy, .market, 100, none, none, .ioc, .filled, none, 100,
       some (3/2), 0, 0, 0, []⟩, 0, some 3600, 0⟩
     (by norm_num [cacheOrders, runExec, execStep, submitOrder, cancelOrder, handleFill,
    execConfigureRouting, execRegisterAdapter, alookup, aremove, ainsert,
    submittedForm, cancelledForm, filledForm, fillApplied, cancelApplied,
    submitPrepared, pushStrategyOrder, ExecutionEngineM.mkNew, GCache.new,
    GCache.put, evictLoop, GCacheEntry.mk', Order.isComplete, Order.isActive,
    Order.isFilledFull, goodSeq, goodEvent, List.foldl])
     (by norm_num [cacheOrders, runExec, execStep, submitOrder, cancelOrder, handleFill,
    execConfigureRouting, execRegisterAdapter, alookup, aremove, ainsert,
    submittedForm, cancelledForm, filledForm, fillApplied, cancelApplied,
    submitPrepared, pushStrategyOrder, ExecutionEngineM.mkNew, GCache.new,
    GCache.put, evictLoop, GCacheEntry.mk', Order.isComplete, Order.isActive,
    Order.isFilledFull, goodSeq, goodEvent, List.foldl])
     (by decide)⟩

/-! ### C1: the cancel-order error contract -/

/-- A fresh `Initialized` demo order (spec §10 scenario 2). -/
def c1DemoOrder : Order :=
  ⟨1, 1, 1, .buy, .market, 100, none, none, .ioc, .initialized, none, 0,
    none, 0, 0, 0, []⟩

/-- The engine after registering an adapter, routing instrument 1 to it, and
submitting the demo order (spec §10 scenario 2 setup). -/
def c1DemoState : ExecutionEngineM :=
  runExec (ExecutionEngineM.mkNew 0 0)
    [ExecEvent.registerAdapter "X", ExecEvent.configureRouting 1 "X",
     ExecEvent.submit c1DemoOrder]

/-- A state whose active-order set holds a completed (terminal) order, to
exercise the `OrderNotActive` branch. -/
def c1CompleteOrder : Order :=
  ⟨1, 1, 1, .buy, .market, 100, none, none, .ioc, .filled, none, 100,
    some (3/2), 0, 0, 0, []⟩

def c1StaleState : ExecutionEngineM :=
  { ExecutionEngineM.mkNew 0 0 with activeOrders := [(1, c1CompleteOrder)] }

/-- C1 as spec'd: after any successful `cancel_order`, cancelling the same id
again fails with `OrderNotActive`. -/
def C1Claim : Prop :=
  ∀ (s : ExecutionEngineM) (orderId : Nat) (resp resp' : Except String Unit)
    (s' : ExecutionEngineM),
    cancelOrder s orderId resp = (.ok (), s') →
    (cancelOrder s' orderId resp').1 = .error (.orderNotActive orderId)

/-- **C1 counterexample.**  A successful cancel removes the order from
`active_orders`, and `cancel_order` looks orders up in `active_orders` only:
the second cancel of the same id therefore fails with `OrderNotFound`, not
with the claimed `OrderNotActive`. -/
theorem c1_counterexample_second_cancel_not_found :
    (cancelOrder c1DemoState 1 (.ok ())).1 = .ok () ∧
    (cancelOrder (cancelOrder c1DemoState 1 (.ok ())).2 1 (.ok ())).1 =
      .error (.orderNotFound 1) ∧
    ¬ C1Claim := by
  have hfst : (cancelOrder c1DemoState 1 (.ok ())).1 = .ok () := by decide
  have hsnd : (cancelOrder (cancelOrder c1DemoState 1 (.ok ())).2 1
      (.ok ())).1 = .error (.orderNotFound 1) := by decide
  refine ⟨hfst, hsnd, ?_⟩
  intro h
  have hpair : cancelOrder c1DemoState 1 (.ok ()) =
      ((cancelOrder c1DemoState 1 (.ok ())).1,
        (cancelOrder c1DemoState 1 (.ok ())).2) := rfl
  rw [hfst] at hpair
  have hbad := h c1DemoState 1 (.ok ()) (.ok ()) _ hpair
  rw [hsnd] at hbad
  exact absurd hbad (by decide)

/-- **C1** (corrected).  `cancel_order` fails with `OrderNotFound` when the
id is absent from `active_orders` and with `OrderNotActive` when the looked-up
order is already complete; but because a successful cancel *removes* the
order from `active_orders` and the lookup consults only `active_orders`, a
second cancel of the same id fails with `OrderNotFound`, not
`OrderNotActive` (assuming the `HashMap`-key property that active-order keys
are duplicate-free). -/
theorem c1_cancel_error_contract :
    (∀ (s : ExecutionEngineM) (orderId : Nat) (resp : Except String Unit),
      alookup s.activeOrders orderId = none →
      (cancelOrder s orderId resp).1 = .error (.orderNotFound orderId)) ∧
    (∀ (s : ExecutionEngineM) (orderId : Nat) (order : Order)
        (resp : Except String Unit),
      alookup s.activeOrders orderId = some order →
      order.isComplete = true →
      (cancelOrder s orderId resp).1 = .error (.orderNotActive orderId)) ∧
    (∀ (s : ExecutionEngineM) (orderId : Nat)
        (resp resp' : Except String Unit) (s' : ExecutionEngineM),
      (s.activeOrders.map Prod.fst).Nodup →
      cancelOrder s orderId resp = (.ok (), s') →
      (cancelOrder s' orderId resp').1 = .error (.orderNotFound orderId)) := by
  refine ⟨?_, ?_, ?_⟩
  · intro s orderId resp h
    simp [cancelOrder, h]
  · intro s orderId order resp hlk hcomp
    have hact : order.isActive = false := by
      cases hstat : order.status <;>
        simp [Order.isComplete, hstat] at hcomp <;>
        simp [Order.isActive, hstat]
    simp [cancelOrder, hlk, hact]
  · intro s orderId resp resp' s' hnd hok
    cases h1 : alookup s.activeOrders orderId with
    | none => simp [cancelOrder, h1] at hok
    | some order =>
      cases hact : order.isActive with
      | false => simp [cancelOrder, h1, hact] at hok
      | true =>
        cases h2 : alookup s.routingConfig order.instrumentId with
        | none => simp [cancelOrder, h1, hact, h2] at hok
        | some ex =>
          by_cases hmem : ex ∈ s.exchangeAdapters
          · cases resp with
            | error e => simp [cancelOrder, h1, hact, h2, hmem] at hok
            | ok u =>
              simp only [cancelOrder, h1, hact, h2, if_pos hmem, if_true,
                Prod.mk.injEq, true_and] at hok
              have hnone : alookup s'.activeOrders orderId = none := by
                rw [← hok]
                show alookup (aremove s.activeOrders orderId) orderId = none
                exact aremove_lookup_self_nodup hnd
              simp [cancelOrder, hnone]
          · simp [cancelOrder, h1, hact, h2, hmem] at hok

/-- Witness for C1: the three branches exercised at concrete states — a
missing id, a stale terminal order, and the demo double-cancel. -/
theorem c1_cancel_error_contract_witness :
    (alookup c1DemoState.activeOrders 2 = none ∧
      (cancelOrder c1DemoState 2 (.ok ())).1 = .error (.orderNotFound 2)) ∧
    (alookup c1StaleState.activeOrders 1 = some c1CompleteOrder ∧
      c1CompleteOrder.isComplete = true ∧
      (cancelOrder c1StaleState 1 (.ok ())).1 =
        .error (.orderNotActive 1)) ∧
    ((c1DemoState.activeOrders.map Prod.fst).Nodup ∧
      cancelOrder c1DemoState 1 (.ok ()) =
        (.ok (), (cancelOrder c1DemoState 1 (.ok ())).2) ∧
      (cancelOrder (cancelOrder c1DemoState 1 (.ok ())).2 1 (.ok ())).1 =
        .error (.orderNotFound 1)) := by
  have hA : alookup c1DemoState.activeOrders 2 = none := by decide
  have hB1 : alookup c1StaleState.activeOrders 1 = some c1CompleteOrder := by
    simp [c1StaleState, alookup]
  have hB2 : c1CompleteOrder.isComplete = true := by decide
  have hC1 : (c1DemoState.activeOrders.map Prod.fst).Nodup := by decide
  have hfst : (cancelOrder c1DemoState 1 (.ok ())).1 = .ok () := by decide
  have hC2 : cancelOrder c1DemoState 1 (.ok ()) =
      (.ok (), (cancelOrder c1DemoState 1 (.ok ())).2) := by
    have hpair : cancelOrder c1DemoState 1 (.ok ()) =
        ((cancelOrder c1DemoState 1 (.ok ())).1,
          (cancelOrder c1DemoState 1 (.ok ())).2) := rfl
    rw [hfst] at hpair
    exact hpair
  exact ⟨⟨hA, c1_cancel_error_contract.1 _ _ _ hA⟩,
    ⟨hB1, hB2, c1_cancel_error_contract.2.1 _ _ _ _ hB1 hB2⟩,
    ⟨hC1, hC2, c1_cancel_error_contract.2.2 _ _ _ _ _ hC1 hC2⟩⟩

/-! ### C8: the volume-weighted average fill price -/

/-- A 100-quantity limit order (spec §10 scenario 3). -/
def c8Order : Order :=
  ⟨1, 1, 1, .buy, .limit, 100, some (8/5), none, .gtc, .initialized, none, 0,
    none, 0, 0, 0, []⟩

/-- The engine after submitting the order and handling the first fill
(30 @ 1.5, commission 0.1). -/
def c8State : ExecutionEngineM :=
  runExec (ExecutionEngineM.mkNew 0 0)
    [ExecEvent.registerAdapter "X", ExecEvent.configureRouting 1 "X",
     ExecEvent.submit c8Order,
     ExecEvent.fill ⟨1, "f1", 3/2, 30, 0, 1/10, "USD"⟩]

/-- …and after the second fill (70 @ 1.6, commission 0.2). -/
def c8Final : ExecutionEngineM :=
  execStep c8State (ExecEvent.fill ⟨1, "f2", 8/5, 70, 0, 1/5, "USD"⟩)

/-- **C8** (confirmed).  `handle_fill` rewrites the order by the fill
formulas: on a first fill the average fill price is the fill's price, on a
later fill it is `(prev_avg·prev_filled + price·qty) / new_filled` with
`new_filled = prev_filled + qty` the updated filled quantity; quantities and
commissions accumulate.  In the spec's scenario (fills 30 @ 1.5 comm 0.1 and
70 @ 1.6 comm 0.2 on a 100-quantity order) this gives PartiallyFilled /
filled 30 / avg 1.5 after the first fill, and Filled / filled 100 /
avg 1.57 / commission 0.3 with the order removed from `active_orders` after
the second. -/
theorem c8_fill_average_price :
    (∀ (s : ExecutionEngineM) (order : Order) (fill : Fill),
      order.avgFillPrice = none →
      (filledForm s order fill).avgFillPrice = some fill.price ∧
      (filledForm s order fill).filledQuantity =
        order.filledQuantity + fill.quantity ∧
      (filledForm s order fill).commission =
        order.commission + fill.commission) ∧
    (∀ (s : ExecutionEngineM) (order : Order) (fill : Fill) (avg : ℚ),
      order.avgFillPrice = some avg →
      (filledForm s order fill).filledQuantity =
        order.filledQuantity + fill.quantity ∧
      (filledForm s order fill).avgFillPrice =
        some ((avg * order.filledQuantity + fill.price * fill.quantity) /
          (order.filledQuantity + fill.quantity))) ∧
    ((alookup c8State.activeOrders 1).map
        (fun o => (o.status, o.filledQuantity, o.avgFillPrice)) =
      some (.partiallyFilled, 30, some (3/2)) ∧
    (alookup c8Final.orderCache.data 1).map
        (fun e => (e.value.status, e.value.filledQuantity,
          e.value.avgFillPrice, e.value.commission)) =
      some (.filled, 100, some (157/100), 3/10) ∧
    alookup c8Final.activeOrders 1 = none) := by
  refine ⟨?_, ?_, ?_, ?_, ?_⟩
  · intro s order fill h
    exact ⟨by simp [filledForm, h], rfl, rfl⟩
  · intro s order fill avg h
    exact ⟨rfl, by simp [filledForm, h]⟩
  · norm_num [c8State, c8Order, cacheOrders, runExec, execStep, submitOrder,
      handleFill, execConfigureRouting, execRegisterAdapter, alookup, aremove,
      ainsert, submittedForm, filledForm, fillApplied, submitPrepared,
      pushStrategyOrder, ExecutionEngineM.mkNew, GCache.new, GCache.put,
      evictLoop, GCacheEntry.mk', Order.isComplete, Order.isActive,
      Order.isFilledFull, List.foldl]
  · norm_num [c8Final, c8State, c8Order, cacheOrders, runExec, execStep,
      submitOrder, handleFill, execConfigureRouting, execRegisterAdapter,
      alookup, aremove, ainsert, submittedForm, filledForm, fillApplied,
      submitPrepared, pushStrategyOrder, ExecutionEngineM.mkNew, GCache.new,
      GCache.put, evictLoop, GCacheEntry.mk', Order.isComplete, Order.isActive,
      Order.isFilledFull, List.foldl]
  · norm_num [c8Final, c8State, c8Order, cacheOrders, runExec, execStep,
      submitOrder, handleFill, execConfigureRouting, execRegisterAdapter,
      alookup, aremove, ainsert, submittedForm, filledForm, fillApplied,
      submitPrepared, pushStrategyOrder, ExecutionEngineM.mkNew, GCache.new,
      GCache.put, evictLoop, GCacheEntry.mk', Order.isComplete, Order.isActive,
      Order.isFilledFull, List.foldl]

/-- Witness for C8: both average-price branches evaluated at the scenario's
concrete orders and fills. -/
theorem c8_fill_average_price_witness :
    ((c8Order.avgFillPrice = none ∧
      (filledForm (ExecutionEngineM.mkNew 0 0) c8Order
          ⟨1, "f1", 3/2, 30, 0, 1/10, "USD"⟩).avgFillPrice = some (3/2)) ∧
    ((⟨1, 1, 1, .buy, .limit, 100, some (8/5), none, .gtc, .partiallyFilled,
        none, 30, some (3/2), 0, 0, 1/10, []⟩ : Order).avgFillPrice =
        some (3/2) ∧
      (filledForm (ExecutionEngineM.mkNew 0 0)
          ⟨1, 1, 1, .buy, .limit, 100, some (8/5), none, .gtc,
            .partiallyFilled, none, 30, some (3/2), 0, 0, 1/10, []⟩
          ⟨1, "f2", 8/5, 70, 0, 1/5, "USD"⟩).avgFillPrice =
        some ((3/2 * 30 + 8/5 * 70) / ((30 : ℚ) + 70)))) := by
  have h1 : c8Order.avgFillPrice = none := rfl
  have h2 : (⟨1, 1, 1, .buy, .limit, 100, some (8/5), none, .gtc,
      .partiallyFilled, none, 30, some (3/2), 0, 0, 1/10, []⟩ :
      Order).avgFillPrice = some (3/2) := rfl
  exact ⟨⟨h1, (c8_fill_average_price.1 _ _ _ h1).1⟩,
    ⟨h2, (c8_fill_average_price.2.1 _ _ _ _ h2).2⟩⟩

/-! ### C10: what a failed submit leaves behind -/

theorem pushStrategyOrder_lookup (so : List (Nat × List Nat)) (sid oid : Nat) :
    alookup (pushStrategyOrder so sid oid) sid =
      some ((alookup so sid).getD [] ++ [oid]) := by
  cases h : alookup so sid with
  | none => simp [pushStrategyOrder, h, ainsert_lookup_self]
  | some l => simp [pushStrategyOrder, h, ainsert_lookup_self]

theorem submitPrepared_lookups (s : ExecutionEngineM) (o : Order) :
    alookup (submitPrepared s o).activeOrders o.orderId = some o ∧
    (alookup (submitPrepared s o).orderCache.data o.orderId).map
      GCacheEntry.value = some o ∧
    alookup (submitPrepared s o).strategyOrders o.strategyId =
      some ((alookup s.strategyOrders o.strategyId).getD [] ++ [o.orderId]) ∧
    (submitPrepared s o).stats = s.stats ∧
    (submitPrepared s o).published = s.published := by
  refine ⟨ainsert_lookup_self _ _ _, ?_, pushStrategyOrder_lookup _ _ _, rfl,
    rfl⟩
  show (alookup (s.orderCache.put o.orderId o s.nowSecs).data o.orderId).map
    GCacheEntry.value = some o
  rw [gput_lookup_self]
  rfl

/-- **C10** (confirmed).  `submit_order` stamps the order `Submitted`,
writes it to the order cache, inserts it into `active_orders`, and appends
its id to the strategy's order list *before* the routing lookup; when
routing fails (`NoRoutingConfigured`) or the routed adapter is unregistered
(`ExchangeNotFound`) it returns the error with none of this rolled back,
and the early return skips the `orders_submitted` increment and the
`OrderSubmitted` publication — a failed submission leaves a `Submitted`
order counted as active. -/
theorem c10_failed_submit_keeps_order_active :
    ∀ (s : ExecutionEngineM) (order : Order) (err : ExecError),
      (submitOrder s order).1 = .error err →
      (err = .noRoutingConfigured order.instrumentId ∨
        ∃ ex, alookup s.routingConfig order.instrumentId = some ex ∧
          ex ∉ s.exchangeAdapters ∧ err = .exchangeNotFound ex) ∧
      (submitOrder s order).2 = submitPrepared s (submittedForm s order) ∧
      (submittedForm s order).status = .submitted ∧
      alookup (submitOrder s order).2.activeOrders order.orderId =
        some (submittedForm s order) ∧
      (alookup (submitOrder s order).2.orderCache.data order.orderId).map
        GCacheEntry.value = some (submittedForm s order) ∧
      alookup (submitOrder s order).2.strategyOrders order.strategyId =
        some ((alookup s.strategyOrders order.strategyId).getD [] ++
          [order.orderId]) ∧
      (submitOrder s order).2.stats = s.stats ∧
      (submitOrder s order).2.published = s.published := by
  intro s order err herr
  have hkey : (submittedForm s order).orderId = order.orderId := rfl
  have hsid : (submittedForm s order).strategyId = order.strategyId := rfl
  have hstate : (submitOrder s order).2 =
      submitPrepared s (submittedForm s order) ∧
      (err = .noRoutingConfigured order.instrumentId ∨
        ∃ ex, alookup s.routingConfig order.instrumentId = some ex ∧
          ex ∉ s.exchangeAdapters ∧ err = .exchangeNotFound ex) := by
    cases hroute : alookup s.routingConfig order.instrumentId with
    | none =>
      simp only [submitOrder, hroute, Except.error.injEq] at herr
      exact ⟨by simp [submitOrder, hroute], Or.inl herr.symm⟩
    | some ex =>
      by_cases hmem : ex ∈ s.exchangeAdapters
      · simp [submitOrder, hroute, hmem] at herr
      · simp only [submitOrder, hroute, if_neg hmem,
          Except.error.injEq] at herr
        exact ⟨by simp [submitOrder, hroute, hmem],
          Or.inr ⟨ex, rfl, hmem, herr.symm⟩⟩
  obtain ⟨hs2, hcase⟩ := hstate
  have hl := submitPrepared_lookups s (submittedForm s order)
  rw [hkey, hsid] at hl
  rw [hs2]
  exact ⟨hcase, rfl, rfl, hl.1, hl.2.1, hl.2.2.1, hl.2.2.2.1, hl.2.2.2.2⟩

/-- Witness for C10: submitting to a freshly created engine (no routing
configured) fails with `NoRoutingConfigured`, yet the order sits
`Submitted` in the cache, the active set, and its strategy's list. -/
theorem c10_failed_submit_keeps_order_active_witness :
    (submitOrder (ExecutionEngineM.mkNew 0 0)
        ⟨1, 1, 1, .buy, .market, 100, none, none, .ioc, .initialized, none,
          0, none, 0, 0, 0, []⟩).1 = .error (.noRoutingConfigured 1) ∧
    ((.error (.noRoutingConfigured 1) : Except ExecError Nat) =
        .error (.noRoutingConfigured 1) ∨
      ∃ ex, alookup (ExecutionEngineM.mkNew 0 0).routingConfig 1 = some ex ∧
        ex ∉ (ExecutionEngineM.mkNew 0 0).exchangeAdapters ∧
        (.error (.noRoutingConfigured 1) : Except ExecError Nat) =
          .error (.exchangeNotFound ex)) ∧
    alookup (submitOrder (ExecutionEngineM.mkNew 0 0)
        ⟨1, 1, 1, .buy, .market, 100, none, none, .ioc, .initialized, none,
          0, none, 0, 0, 0, []⟩).2.activeOrders 1 =
      some (submittedForm (ExecutionEngineM.mkNew 0 0)
        ⟨1, 1, 1, .buy, .market, 100, none, none, .ioc, .initialized, none,
          0, none, 0, 0, 0, []⟩) ∧
    (submitOrder (ExecutionEngineM.mkNew 0 0)
        ⟨1, 1, 1, .buy, .market, 100, none, none, .ioc, .initialized, none,
          0, none, 0, 0, 0, []⟩).2.stats =
      (ExecutionEngineM.mkNew 0 0).stats ∧
    (submitOrder (ExecutionEngineM.mkNew 0 0)
        ⟨1, 1, 1, .buy, .market, 100, none, none, .ioc, .initialized, none,
          0, none, 0, 0, 0, []⟩).2.published =
      (ExecutionEngineM.mkNew 0 0).published := by
  have herr : (submitOrder (ExecutionEngineM.mkNew 0 0)
      ⟨1, 1, 1, .buy, .market, 100, none, none, .ioc, .initialized, none,
        0, none, 0, 0, 0, []⟩).1 = .error (.noRoutingConfigured 1) := by
    decide
  have h := c10_failed_submit_keeps_order_active (ExecutionEngineM.mkNew 0 0)
    ⟨1, 1, 1, .buy, .market, 100, none, none, .ioc, .initialized, none,
      0, none, 0, 0, 0, []⟩ (.noRoutingConfigured 1) herr
  exact ⟨herr, Or.inl rfl, h.2.2.2.1, h.2.2.2.2.2.2.1, h.2.2.2.2.2.2.2⟩

end AlphaForge
